import Mathlib

/-!
Verification of the FDTree (fixed-depth tree) implementation.

A node of the source is a Python list `[key, G, payload]` where the payload
is the stored value for a leaf and the list of children for an internal
node.  We embed this as a two-constructor inductive type; the count field
`G` (`t[1]`) is kept on both constructors so that every slot of the source
representation is present.  Machine integers of the source are arbitrary
precision (Python), so keys, values and counts are `Int`.

All depth-recursive operations of the source recurse on the caller-supplied
depth argument, never on the node, and are embedded with structural
recursion on that `Nat`.  Where the source would raise (indexing an empty
child list, taking `len` of a leaf payload) the embedding returns a
default value; every theorem below restricts to inputs on which the source
is exception-free.
-/

namespace Fdtree

inductive Node where
  | leaf (key g value : Int)
  | inner (key g : Int) (children : List Node)
deriving Repr

/-- The key slot `t[0]`. -/
def Node.key : Node → Int
  | .leaf k _ _ => k
  | .inner k _ _ => k

/-- The count slot `t[1]` (called `G` in the source). -/
def Node.g : Node → Int
  | .leaf _ g _ => g
  | .inner _ g _ => g

/-- The payload slot `t[2]` read as a child list; a leaf has no children
(the source would raise a type error on `len(t[2])` there). -/
def Node.children : Node → List Node
  | .leaf _ _ _ => []
  | .inner _ _ cs => cs

def Node.isLeaf : Node → Bool
  | .leaf _ _ _ => true
  | .inner _ _ _ => false

def Node.isInner : Node → Bool
  | .leaf _ _ _ => false
  | .inner _ _ _ => true

/-- Default node used where the source would raise an IndexError. -/
def dflt : Node := .leaf 0 1 0

@[simp] theorem key_leaf (k g v : Int) : (Node.leaf k g v).key = k := rfl

@[simp] theorem key_inner (k g : Int) (cs : List Node) : (Node.inner k g cs).key = k := rfl

@[simp] theorem g_leaf (k g v : Int) : (Node.leaf k g v).g = g := rfl

@[simp] theorem g_inner (k g : Int) (cs : List Node) : (Node.inner k g cs).g = g := rfl

@[simp] theorem children_leaf (k g v : Int) : (Node.leaf k g v).children = [] := rfl

@[simp] theorem children_inner (k g : Int) (cs : List Node) :
    (Node.inner k g cs).children = cs := rfl

/-- Sum of the count slots of a list of nodes: `sum([c[1] for c in ...])`. -/
def sumG (cs : List Node) : Int := (cs.map Node.g).sum

/-- Source `newtree(d)`. -/
def newtree : Nat → Node
  | 0 => .leaf 0 1 0
  | d+1 => .inner 0 1 [newtree d]

/-- Source `split(t)`: divide the child list at index `len/2` (floor). -/
def split (t : Node) : Node × Node :=
  let cs := t.children
  let lc := cs.take (cs.length / 2)
  let rc := cs.drop (cs.length / 2)
  (.inner t.key (sumG lc) lc, .inner (rc.headD dflt).key (sumG rc) rc)

/-- Source `join(t1, t2)`. -/
def join (t1 t2 : Node) : Node :=
  .inner t1.key (t1.g + t2.g) (t1.children ++ t2.children)

/-- The `maxkey, maxlen` loop of `rebalance_increase`: scan with strict `>`
so the first index having maximal child-list length wins. -/
def maxScan : List Node → Nat → Nat × Nat → Nat × Nat
  | [], _, acc => acc
  | c :: rest, i, acc =>
    if acc.2 < c.children.length then maxScan rest (i+1) (i, c.children.length)
    else maxScan rest (i+1) acc

/-- Source `rebalance_increase(t, d)`. -/
def rebalance_increase (t : Node) (d : Nat) : Node :=
  if d ≤ 1 ∨ t.g ≤ (t.children.length : Int) ^ d then t
  else
    let mk := (maxScan t.children 0 (0, 0)).1
    let pr := split (t.children.getD mk dflt)
    .inner t.key t.g (t.children.take mk ++ [pr.1, pr.2] ++ t.children.drop (mk+1))

/-- The `minkey, minlen` loop of `rebalance_decrease`: scan adjacent pairs
with strict `<` starting from `2**999`, so the first index having minimal
combined child-list length wins. -/
def minScan : List Node → Nat → Nat × Nat → Nat × Nat
  | a :: b :: rest, i, acc =>
    let L := a.children.length + b.children.length
    if L < acc.2 then minScan (b :: rest) (i+1) (i, L)
    else minScan (b :: rest) (i+1) acc
  | _, _, acc => acc

/-- Source `rebalance_decrease(t, d)`.  Note that the middle guard compares
against `(len(t[2]) - 1) ** d`, computed from the child list before the
zero-width cleanup. -/
def rebalance_decrease (t : Node) (d : Nat) : Node :=
  let c := t.children.filter (fun u => u.children.length != 0)
  if d ≤ 1 ∨ ((t.children.length : Int) - 1) ^ d < t.g ∨ c.length ≤ 1 then
    .inner (if c.length != 0 then (c.headD dflt).key else t.key) t.g c
  else
    let mk := (minScan c 0 (0, 2 ^ 999)).1
    let nc := c.take mk ++ [join (c.getD mk dflt) (c.getD (mk+1) dflt)] ++ c.drop (mk+2)
    .inner (if nc.length != 0 then (nc.headD dflt).key else t.key) t.g nc

/-- The `while` loop of `get_subindex`: length of the longest prefix of
children whose key is `≤ k`. -/
def subLoop : List Node → Int → Nat
  | [], _ => 0
  | c :: rest, k => if c.key ≤ k then subLoop rest k + 1 else 0

/-- Source `get_subindex(t, k)`: `i-1 if i > 0 else i`. -/
def get_subindex (t : Node) (k : Int) : Nat :=
  let i := subLoop t.children k
  if 0 < i then i - 1 else i

/-- The `while` loop of the base case of `add`: length of the longest
prefix of children whose key is `< k`. -/
def insLoop : List Node → Int → Nat
  | [], _ => 0
  | c :: rest, k => if c.key < k then insLoop rest k + 1 else 0

/-- Source `add(t, k, v, d)`.  The source is undefined at `d = 0` (it would
recurse with negative depth); the embedding returns `t` there, and every
theorem assumes `1 ≤ d`. -/
def add : Node → Int → Int → Nat → Node
  | t, _, _, 0 => t
  | t, k, v, 1 =>
    let cs := t.children
    let i := insLoop cs k
    if i < cs.length ∧ k = (cs.getD i dflt).key then
      .inner t.key t.g (cs.take i ++ [.leaf k 1 v] ++ cs.drop (i+1))
    else
      .inner (min k t.key) (t.g + 1) (cs.take i ++ [.leaf k 1 v] ++ cs.drop i)
  | t, k, v, d+2 =>
    let i := get_subindex t k
    let nc := t.children.take i ++ [add (t.children.getD i dflt) k v (d+1)]
                ++ t.children.drop (i+1)
    let nG := t.g - (t.children.getD i dflt).g + (nc.getD i dflt).g
    rebalance_increase (.inner (nc.headD dflt).key nG nc) (d+2)

/-- Source `remove(t, k, d)`; undefined at `d = 0` as for `add`. -/
def remove : Node → Int → Nat → Node
  | t, _, 0 => t
  | t, k, 1 =>
    let nc := t.children.filter (fun u => u.key != k)
    .inner (if nc.length != 0 then (nc.headD dflt).key else t.key) (nc.length : Int) nc
  | t, k, d+2 =>
    let i := get_subindex t k
    if i = t.children.length then t
    else
      let nc := t.children.take i ++ [remove (t.children.getD i dflt) k (d+1)]
                  ++ t.children.drop (i+1)
      let nG := t.g - (t.children.getD i dflt).g + (nc.getD i dflt).g
      rebalance_decrease (.inner (nc.headD dflt).key nG nc) (d+2)

/-- The linear scan of the base case of `get`; on a leaf child the source
would unpack `[k, 1, v]` and return `v`.  A matching internal child (type
confused input, outside every claim) yields `none`. -/
def scanVal : List Node → Int → Option Int
  | [], _ => none
  | .leaf k2 _ v :: rest, k => if k = k2 then some v else scanVal rest k
  | .inner k2 _ _ :: rest, k => if k = k2 then none else scanVal rest k

/-- Source `get(t, k, d)`; undefined at `d = 0` as for `add`. -/
def get : Node → Int → Nat → Option Int
  | _, _, 0 => none
  | t, k, 1 => scanVal t.children k
  | t, k, d+2 => get (t.children.getD (get_subindex t k) dflt) k (d+1)

/-- The adjacent-key loop of `check_invariants`. -/
def sortedAdj : List Node → Bool
  | [] => true
  | [_] => true
  | a :: b :: rest => decide (a.key < b.key) && sortedAdj (b :: rest)

/-- Source `check_invariants(t, d)` as a boolean: `true` iff every assert
succeeds.  At `d = 0` the source asserts `len(t) == 3` (always true of the
representation) and `t[1] == 1`. -/
def check_invariants : Node → Nat → Bool
  | t, 0 => t.g == 1
  | t, d+1 =>
    let cs := t.children
    (t.g == sumG cs)
    && decide (0 < cs.length)
    && sortedAdj cs
    && (t.key == (cs.headD dflt).key)
    && decide ((((cs.length : Int) - 1) / 2) ^ (d+1) ≤ t.g)
    && decide (t.g ≤ ((cs.length : Int) * 2) ^ (d+1))
    && cs.all (fun u => check_invariants u d)

/-! ### Proof-side definitions

The definitions below are not part of the source; they are the vocabulary
in which the theorems are stated: the list of key/value pairs stored at
the leaves of a tree, association-list lookup and sorted insertion, the
global ordering predicate `nav` (which the source's `check_invariants`
does not imply, since that checker only compares keys of adjacent
siblings, never keys across subtrees), and auxiliary structural
predicates. -/

/-- The key/value pairs at the leaves of a depth-`d` tree, left to right. -/
def entries : Node → Nat → List (Int × Int)
  | .leaf k _ v, 0 => [(k, v)]
  | _, 0 => []
  | t, d+1 => (t.children.map (fun c => entries c d)).flatten

/-- The leaf keys of a depth-`d` tree, left to right. -/
def eKeys (t : Node) (d : Nat) : List Int := (entries t d).map Prod.fst

/-- First-match association lookup. -/
def lookupE : List (Int × Int) → Int → Option Int
  | [], _ => none
  | p :: r, k => if k = p.1 then some p.2 else lookupE r k

/-- Insert-or-replace into an association list, before the first entry
whose key is not smaller. -/
def insertE (k v : Int) : List (Int × Int) → List (Int × Int)
  | [] => [(k, v)]
  | p :: r => if p.1 < k then p :: insertE k v r
              else if k = p.1 then (k, v) :: r
              else (k, v) :: p :: r

/-- Every node key in the depth-`d` subtree is at most `bnd`. -/
def allKeysLE : Node → Nat → Int → Bool
  | t, 0, bnd => decide (t.key ≤ bnd)
  | t, d+1, bnd => decide (t.key ≤ bnd) && t.children.all (fun c => allKeysLE c d bnd)

/-- Ordering constraint between a child and the key of the sibling to its
right: every leaf key below the child is strictly below that key, and
every node key below the child is at most that key. -/
def pairOK (a b : Node) (d : Nat) : Bool :=
  (eKeys a d).all (fun x => decide (x < b.key)) && allKeysLE a d b.key

/-- Adjacent-sibling ordering at depth `d+1`: `pairOK` for each pair of
neighbours. -/
def adjOK : List Node → Nat → Bool
  | [], _ => true
  | [_], _ => true
  | a :: b :: r, d => pairOK a b d && adjOK (b :: r) d

/-- A node's key equals its first child's key (vacuous without children). -/
def headKeyOK (t : Node) : Bool :=
  match t.children with
  | [] => true
  | c :: _ => t.key == c.key

/-- Global ordering of a depth-`d` tree: leaves exactly at depth `d`, every
internal node's key is its first child's key, and `adjOK` at every level.
This is the part of the data-model ordering invariant that the source's
`check_invariants` does not verify (that checker compares only the keys
of adjacent siblings, never keys across subtrees). -/
def nav : Node → Nat → Bool
  | t, 0 => t.isLeaf
  | t, d+1 =>
    t.isInner && headKeyOK t && adjOK t.children d && t.children.all (fun c => nav c d)

/-- Every internal node down to depth `d` has at least one child. -/
def proper : Node → Nat → Bool
  | _, 0 => true
  | t, d+1 => decide (0 < t.children.length) && t.children.all (fun c => proper c d)

/-- Count consistency: every leaf has count 1 and every internal node's
count is the sum of its children's counts. -/
def gOK : Node → Nat → Bool
  | t, 0 => t.g == 1
  | t, d+1 => (t.g == sumG t.children) && t.children.all (fun c => gOK c d)

/-- The count fields seen along the `get_subindex` descent path towards a
key, from the root down to the depth-1 node. -/
def gPath : Node → Int → Nat → List Int
  | t, _, 0 => [t.g]
  | t, _, 1 => [t.g]
  | t, k, d+2 => t.g :: gPath (t.children.getD (get_subindex t k) dflt) k (d+1)

/-- Fold a list of key/value pairs into a fresh depth-`d` tree by `add`. -/
def addList (d : Nat) (kvs : List (Int × Int)) : Node :=
  kvs.foldl (fun t p => add t p.1 p.2 d) (newtree d)

/-- Run `add` over `kvs` from `newtree d` and report whether
`check_invariants` succeeded after every single call. -/
def addsOK (d : Nat) (kvs : List (Int × Int)) : Bool :=
  (kvs.foldl (fun (p : Node × Bool) q =>
    let t := add p.1 q.1 q.2 d
    (t, p.2 && check_invariants t d)) (newtree d, true)).2

/-- Run `remove` over `ks` from `t0` and report whether
`check_invariants` succeeded after every single call. -/
def remsOK (d : Nat) (t0 : Node) (ks : List Int) : Bool :=
  (ks.foldl (fun (p : Node × Bool) k =>
    let t := remove p.1 k d
    (t, p.2 && check_invariants t d)) (t0, true)).2

/-! ### C1 and C2: the rebalancing logic does not maintain `check_invariants` -/

set_option maxRecDepth 100000 in
/-- C1: the claim states that starting from `newtree d`, `check_invariants`
succeeds after every `add` in any sequence with pairwise-distinct keys.
The code violates this: inserting the distinct keys 8,7,6,5,4,3,2,1 (values
are the squares) into `newtree 3` at depth 3 ends with a tree on which
`check_invariants` fails — the final root rebalance splits a 3-wide node
into a 1-wide half of count 5, violating `count ≤ (c*2)^i = 4`. -/
theorem C1_add_sequence_breaks_invariants :
    List.Pairwise (fun a b => a ≠ b) ([8, 7, 6, 5, 4, 3, 2, 1] : List Int)
    ∧ addsOK 3 [(8, 64), (7, 49), (6, 36), (5, 25), (4, 16), (3, 9), (2, 4), (1, 1)] = false := by
  decide

set_option maxRecDepth 100000 in
/-- C2: the claim states that inserting distinct keys and then removing
them (down to one remaining key) keeps `check_invariants` true after every
call.  The code violates this in the removal phase: inserting keys 1..13
ascending at depth 3 passes the checker after every insertion, but then
removing keys 1..8 ascending (six keys remain, so the tree is never
emptied) fails the checker after the eighth removal — `rebalance_decrease`
leaves a 1-wide node of count 5, violating `count ≤ (c*2)^i = 4`. -/
theorem C2_remove_sequence_breaks_invariants :
    List.Pairwise (fun a b => a ≠ b) ([1, 2, 3, 4, 5, 6, 7, 8, 9, 10, 11, 12, 13] : List Int)
    ∧ addsOK 3 [(1, 1), (2, 4), (3, 9), (4, 16), (5, 25), (6, 36), (7, 49),
        (8, 64), (9, 81), (10, 100), (11, 121), (12, 144), (13, 169)] = true
    ∧ remsOK 3 (addList 3 [(1, 1), (2, 4), (3, 9), (4, 16), (5, 25), (6, 36), (7, 49),
        (8, 64), (9, 81), (10, 100), (11, 121), (12, 144), (13, 169)])
        [1, 2, 3, 4, 5, 6, 7, 8] = false := by
  decide

/-! ### C8: split and join -/

/-- C8: `split` divides the child list at index `len/2` (floor), the left
node keeping the original key and the resummed lower half, the right node
keyed by the first upper-half child with the resummed upper half (the
upper half is never empty when the node has a child); `join` concatenates
children, sums counts and keeps the left key; and `join` of the two halves
of `split t` reconstitutes `t` whenever `t` has at least one child and its
count is the sum of its children's counts. -/
theorem C8_split_join_roundtrip (t t1 t2 : Node) (h0 : 0 < t.children.length)
    (hg : t.g = sumG t.children) (ht : t.isInner = true) :
    split t = (Node.inner t.key (sumG (t.children.take (t.children.length / 2)))
        (t.children.take (t.children.length / 2)),
      Node.inner ((t.children.drop (t.children.length / 2)).headD dflt).key
        (sumG (t.children.drop (t.children.length / 2)))
        (t.children.drop (t.children.length / 2)))
    ∧ t.children.drop (t.children.length / 2) ≠ []
    ∧ join t1 t2 = Node.inner t1.key (t1.g + t2.g) (t1.children ++ t2.children)
    ∧ join (split t).1 (split t).2 = t := by
  cases t with
  | leaf k g v => simp [Node.isInner] at ht
  | inner k g cs =>
    refine ⟨rfl, ?_, rfl, ?_⟩
    · have hlt : cs.length / 2 < cs.length :=
        Nat.div_lt_self (by simpa [Node.children] using h0) (by norm_num)
      intro hnil
      have := List.drop_eq_nil_iff.mp hnil
      omega
    · simp only [split, join, Node.children, Node.key, Node.g] at *
      have hsum : sumG (cs.take (cs.length / 2)) + sumG (cs.drop (cs.length / 2)) = sumG cs := by
        have h := List.take_append_drop (cs.length / 2) cs
        calc sumG (cs.take (cs.length / 2)) + sumG (cs.drop (cs.length / 2))
            = sumG (cs.take (cs.length / 2) ++ cs.drop (cs.length / 2)) := by
              simp [sumG, List.map_append, List.sum_append]
          _ = sumG cs := by rw [h]
      rw [hsum, ← hg, List.take_append_drop]

/-- Witness for C8 at a concrete two-child node. -/
theorem C8_split_join_roundtrip_witness :
    (0 < (Node.inner 0 2 [Node.leaf 0 1 5, Node.leaf 1 1 6]).children.length)
    ∧ join (split (Node.inner 0 2 [Node.leaf 0 1 5, Node.leaf 1 1 6])).1
        (split (Node.inner 0 2 [Node.leaf 0 1 5, Node.leaf 1 1 6])).2
        = Node.inner 0 2 [Node.leaf 0 1 5, Node.leaf 1 1 6] :=
  ⟨by decide, (C8_split_join_roundtrip (Node.inner 0 2 [Node.leaf 0 1 5, Node.leaf 1 1 6])
    dflt dflt (by decide) (by decide) (by decide)).2.2.2⟩

/-! ### C10: `get_subindex` stays in bounds -/

theorem subLoop_le (cs : List Node) (k : Int) : subLoop cs k ≤ cs.length := by
  induction cs with
  | nil => simp [subLoop]
  | cons c rest ih =>
    simp only [subLoop, List.length_cons]
    split
    · omega
    · omega

theorem subLoop_mem_le (cs : List Node) (k : Int) :
    ∀ j, j < subLoop cs k → (cs.getD j dflt).key ≤ k := by
  induction cs with
  | nil => simp [subLoop]
  | cons c rest ih =>
    intro j hj
    simp only [subLoop] at hj
    by_cases hc : c.key ≤ k
    · simp only [if_pos hc] at hj
      cases j with
      | zero => simpa using hc
      | succ j' => simpa using ih j' (by omega)
    · simp [if_neg hc] at hj

theorem subLoop_stop (cs : List Node) (k : Int) :
    subLoop cs k < cs.length → k < (cs.getD (subLoop cs k) dflt).key := by
  induction cs with
  | nil => simp [subLoop]
  | cons c rest ih =>
    intro h
    simp only [subLoop] at h ⊢
    by_cases hc : c.key ≤ k
    · simp only [if_pos hc] at h ⊢
      simpa using ih (by simpa using h)
    · simp only [if_neg hc]
      simpa using lt_of_not_le hc

theorem sortedAdj_chain (cs : List Node) :
    sortedAdj cs = true ↔ List.Chain' (fun a b => a.key < b.key) cs := by
  induction cs with
  | nil => simp [sortedAdj]
  | cons a rest ih =>
    cases rest with
    | nil => simp [sortedAdj]
    | cons b r =>
      rw [List.chain'_cons, ← ih]
      simp [sortedAdj, Bool.and_eq_true]

theorem sortedAdj_mono (cs : List Node) (hs : sortedAdj cs = true) :
    ∀ i j, i < j → j < cs.length → (cs.getD i dflt).key < (cs.getD j dflt).key := by
  intro i j hij hj
  haveI : IsTrans Node (fun a b => a.key < b.key) := ⟨fun _ _ _ => lt_trans⟩
  have hp : List.Pairwise (fun a b => a.key < b.key) cs :=
    List.chain'_iff_pairwise.mp ((sortedAdj_chain cs).mp hs)
  have hi : i < cs.length := lt_trans hij hj
  have := (List.pairwise_iff_get.mp hp) ⟨i, hi⟩ ⟨j, hj⟩ hij
  simpa [List.getD_eq_getElem, hi, hj] using this

theorem get_subindex_eq (t : Node) (k : Int) :
    get_subindex t k =
      if 0 < subLoop t.children k then subLoop t.children k - 1
      else subLoop t.children k := rfl

/-- C10: for a node with at least one child, `get_subindex` returns an
index strictly below the child count (so the child indexing of `get`,
`add`, `remove` is in bounds, and the early-return branch of `remove`
guarded by `i == len(children)` is never taken); when the children are
sorted as the invariants require, the index is the rightmost child whose
key is `≤ k`, or `0` when every child key exceeds `k`. -/
theorem C10_get_subindex_in_bounds (t : Node) (k : Int) (h0 : 0 < t.children.length) :
    get_subindex t k < t.children.length
    ∧ get_subindex t k ≠ t.children.length
    ∧ (sortedAdj t.children = true →
        (∀ j, j < t.children.length → (t.children.getD j dflt).key ≤ k →
          j ≤ get_subindex t k)
        ∧ ((t.children.getD (get_subindex t k) dflt).key ≤ k
            ∨ (get_subindex t k = 0
               ∧ ∀ j, j < t.children.length → k < (t.children.getD j dflt).key))) := by
  have hle := subLoop_le t.children k
  have hbound : get_subindex t k < t.children.length := by
    rw [get_subindex_eq]
    split <;> omega
  refine ⟨hbound, by omega, fun hs => ?_⟩
  rcases Nat.eq_zero_or_pos (subLoop t.children k) with h0' | hpos
  · have hz : get_subindex t k = 0 := by simp [get_subindex, h0']
    have hall : ∀ j, j < t.children.length → k < (t.children.getD j dflt).key := by
      intro j hj
      have hstop := subLoop_stop t.children k (by omega)
      rw [h0'] at hstop
      rcases Nat.eq_zero_or_pos j with rfl | hjpos
      · exact hstop
      · exact lt_trans hstop (sortedAdj_mono t.children hs 0 j hjpos hj)
    exact ⟨fun j hj hkey => absurd hkey (not_le.mpr (hall j hj)), Or.inr ⟨hz, hall⟩⟩
  · have hidx : get_subindex t k = subLoop t.children k - 1 := by
      simp [get_subindex, if_pos hpos]
    constructor
    · intro j hj hkey
      by_contra hgt
      push_neg at hgt
      have hj' : subLoop t.children k ≤ j := by omega
      have : k < (t.children.getD j dflt).key := by
        rcases eq_or_lt_of_le hj' with heq | hlt
        · rw [← heq]; exact subLoop_stop t.children k (by omega)
        · exact lt_trans (subLoop_stop t.children k (by omega))
            (sortedAdj_mono t.children hs _ j hlt hj)
      omega
    · exact Or.inl (by rw [hidx]; exact subLoop_mem_le t.children k _ (by omega))

/-- Witness for C10 on a concrete two-child node. -/
theorem C10_get_subindex_in_bounds_witness :
    get_subindex (Node.inner 1 2 [Node.inner 1 1 [dflt], Node.inner 5 1 [dflt]]) 3 < 2 :=
  (C10_get_subindex_in_bounds (Node.inner 1 2 [Node.inner 1 1 [dflt], Node.inner 5 1 [dflt]])
    3 (by decide)).1

/-! ### C7: `rebalance_increase` -/

theorem getD_mem (cs : List Node) (j : Nat) (hj : j < cs.length) : cs.getD j dflt ∈ cs := by
  rw [List.getD_eq_getElem cs dflt hj]
  exact List.getElem_mem hj

theorem maxScan_spec (cs : List Node) (i mk ml : Nat) :
    (maxScan cs i (mk, ml) = (mk, ml) ∧ ∀ u ∈ cs, u.children.length ≤ ml)
    ∨ (∃ j, j < cs.length
        ∧ (maxScan cs i (mk, ml)).1 = i + j
        ∧ (maxScan cs i (mk, ml)).2 = (cs.getD j dflt).children.length
        ∧ ml < (cs.getD j dflt).children.length
        ∧ (∀ j2, j2 < cs.length →
            (cs.getD j2 dflt).children.length ≤ (cs.getD j dflt).children.length)
        ∧ (∀ j2, j2 < j →
            (cs.getD j2 dflt).children.length < (cs.getD j dflt).children.length)) := by
  induction cs generalizing i mk ml with
  | nil => exact Or.inl ⟨rfl, by simp⟩
  | cons c rest ih =>
    by_cases hc : ml < c.children.length
    · have hstep : maxScan (c :: rest) i (mk, ml)
          = maxScan rest (i+1) (i, c.children.length) := by
        simp [maxScan, hc]
      rcases ih (i+1) i c.children.length with ⟨heq, hall⟩ | ⟨j, hj, h1, h2, h3, h4, h5⟩
      · refine Or.inr ⟨0, by simp, ?_, ?_, by simpa using hc, ?_, by omega⟩
        · rw [hstep, heq]; simp
        · rw [hstep, heq]; simp
        · intro j2 hj2
          cases j2 with
          | zero => simp
          | succ j2' =>
            simp only [List.getD_cons_succ, List.getD_cons_zero]
            exact hall _ (getD_mem _ _ (by simpa using hj2))
      · refine Or.inr ⟨j+1, by simpa using hj, ?_, ?_, ?_, ?_, ?_⟩
        · rw [hstep, h1]; omega
        · rw [hstep, h2]; simp
        · simp only [List.getD_cons_succ]; omega
        · intro j2 hj2
          cases j2 with
          | zero =>
            simp only [List.getD_cons_zero, List.getD_cons_succ]
            omega
          | succ j2' =>
            simp only [List.getD_cons_succ]
            exact h4 _ (by simpa using hj2)
        · intro j2 hj2
          cases j2 with
          | zero =>
            simp only [List.getD_cons_zero, List.getD_cons_succ]
            omega
          | succ j2' =>
            simp only [List.getD_cons_succ]
            exact h5 _ (by omega)
    · have hstep : maxScan (c :: rest) i (mk, ml) = maxScan rest (i+1) (mk, ml) := by
        simp [maxScan, hc]
      rcases ih (i+1) mk ml with ⟨heq, hall⟩ | ⟨j, hj, h1, h2, h3, h4, h5⟩
      · refine Or.inl ⟨by rw [hstep, heq], ?_⟩
        intro u hu
        rcases List.mem_cons.mp hu with rfl | hu'
        · omega
        · exact hall u hu'
      · refine Or.inr ⟨j+1, by simpa using hj, ?_, ?_, ?_, ?_, ?_⟩
        · rw [hstep, h1]; omega
        · rw [hstep, h2]; simp
        · simp only [List.getD_cons_succ]; omega
        · intro j2 hj2
          cases j2 with
          | zero =>
            simp only [List.getD_cons_zero, List.getD_cons_succ]
            omega
          | succ j2' =>
            simp only [List.getD_cons_succ]
            exact h4 _ (by simpa using hj2)
        · intro j2 hj2
          cases j2 with
          | zero =>
            simp only [List.getD_cons_zero, List.getD_cons_succ]
            omega
          | succ j2' =>
            simp only [List.getD_cons_succ]
            exact h5 _ (by omega)

/-- C7: `rebalance_increase t d` returns `t` unchanged unless `d > 1` and
`t`'s count strictly exceeds `(number of children)^d`; when it fires it
replaces exactly the first child of maximal own-children count by the two
halves of its `split`, keeping `t`'s key and count. -/
theorem C7_rebalance_increase_spec (t : Node) (d : Nat) :
    (¬ (1 < d ∧ ((t.children.length : Int)) ^ d < t.g) → rebalance_increase t d = t)
    ∧ ((1 < d ∧ ((t.children.length : Int)) ^ d < t.g) → 0 < t.children.length →
        ∃ m, m < t.children.length
          ∧ (∀ j, j < t.children.length →
              (t.children.getD j dflt).children.length
                ≤ (t.children.getD m dflt).children.length)
          ∧ (∀ j, j < m →
              (t.children.getD j dflt).children.length
                < (t.children.getD m dflt).children.length)
          ∧ rebalance_increase t d = Node.inner t.key t.g
              (t.children.take m
                ++ [(split (t.children.getD m dflt)).1, (split (t.children.getD m dflt)).2]
                ++ t.children.drop (m+1))
          ∧ (rebalance_increase t d).key = t.key
          ∧ (rebalance_increase t d).g = t.g) := by
  constructor
  · intro h
    have hcond : d ≤ 1 ∨ t.g ≤ ((t.children.length : Int)) ^ d := by
      rcases not_and_or.mp h with h1 | h2
      · exact Or.inl (by omega)
      · exact Or.inr (not_lt.mp h2)
    simp [rebalance_increase, if_pos hcond]
  · intro h h0
    have hcond : ¬ (d ≤ 1 ∨ t.g ≤ ((t.children.length : Int)) ^ d) := by
      push_neg
      exact ⟨by omega, h.2⟩
    have hshape : rebalance_increase t d = Node.inner t.key t.g
        (t.children.take (maxScan t.children 0 (0, 0)).1
          ++ [(split (t.children.getD (maxScan t.children 0 (0, 0)).1 dflt)).1,
              (split (t.children.getD (maxScan t.children 0 (0, 0)).1 dflt)).2]
          ++ t.children.drop ((maxScan t.children 0 (0, 0)).1 + 1)) := by
      simp [rebalance_increase, if_neg hcond]
    rcases maxScan_spec t.children 0 0 0 with ⟨heq, hall⟩ | ⟨j, hj, h1, h2, h3, h4, h5⟩
    · refine ⟨0, h0, ?_, by omega, ?_, ?_, ?_⟩
      · intro j hjlen
        have := hall _ (getD_mem _ _ hjlen)
        omega
      · rw [hshape, heq]
      · rw [hshape]; rfl
      · rw [hshape]; rfl
    · refine ⟨j, hj, h4, h5, ?_, ?_, ?_⟩
      · rw [hshape]
        simp only [Nat.zero_add] at h1
        rw [h1]
      · rw [hshape]; rfl
      · rw [hshape]; rfl

/-- Witness for C7: a no-fire instance at depth 1 and a fired instance at
depth 2 where the count of the rebalanced node is preserved. -/
theorem C7_rebalance_increase_spec_witness :
    rebalance_increase (Node.inner 0 5
        [Node.inner 0 5 [Node.leaf 0 1 0, Node.leaf 1 1 1, Node.leaf 2 1 2,
          Node.leaf 3 1 3, Node.leaf 4 1 4]]) 1
      = Node.inner 0 5
        [Node.inner 0 5 [Node.leaf 0 1 0, Node.leaf 1 1 1, Node.leaf 2 1 2,
          Node.leaf 3 1 3, Node.leaf 4 1 4]]
    ∧ (rebalance_increase (Node.inner 0 5
        [Node.inner 0 5 [Node.leaf 0 1 0, Node.leaf 1 1 1, Node.leaf 2 1 2,
          Node.leaf 3 1 3, Node.leaf 4 1 4]]) 2).g
      = (Node.inner 0 5
        [Node.inner 0 5 [Node.leaf 0 1 0, Node.leaf 1 1 1, Node.leaf 2 1 2,
          Node.leaf 3 1 3, Node.leaf 4 1 4]]).g := by
  constructor
  · exact (C7_rebalance_increase_spec _ 1).1 (by decide)
  · obtain ⟨m, _, _, _, _, _, hg⟩ :=
      (C7_rebalance_increase_spec (Node.inner 0 5
        [Node.inner 0 5 [Node.leaf 0 1 0, Node.leaf 1 1 1, Node.leaf 2 1 2,
          Node.leaf 3 1 3, Node.leaf 4 1 4]]) 2).2 (by constructor <;> decide) (by decide)
    exact hg

/-! ### C5: `rebalance_decrease` -/

/-- The cleanup step of `rebalance_decrease`: children with no children of
their own are discarded. -/
def cleaned (t : Node) : List Node :=
  t.children.filter (fun u => u.children.length != 0)

/-- Combined child count of the adjacent pair at positions `j`, `j+1`. -/
def pairL (cs : List Node) (j : Nat) : Nat :=
  (cs.getD j dflt).children.length + (cs.getD (j+1) dflt).children.length

theorem minScan_spec (cs : List Node) (i mk ml : Nat) :
    (minScan cs i (mk, ml) = (mk, ml) ∧ ∀ j, j + 1 < cs.length → ml ≤ pairL cs j)
    ∨ (∃ j, j + 1 < cs.length
        ∧ (minScan cs i (mk, ml)).1 = i + j
        ∧ (minScan cs i (mk, ml)).2 = pairL cs j
        ∧ pairL cs j < ml
        ∧ (∀ j2, j2 + 1 < cs.length → pairL cs j ≤ pairL cs j2)
        ∧ (∀ j2, j2 < j → pairL cs j < pairL cs j2)) := by
  induction cs generalizing i mk ml with
  | nil => exact Or.inl ⟨rfl, by intro j hj; simp at hj⟩
  | cons a rest ih =>
    cases rest with
    | nil =>
      refine Or.inl ⟨rfl, ?_⟩
      intro j hj
      simp at hj
    | cons b r =>
      have hpair0 : pairL (a :: b :: r) 0 = a.children.length + b.children.length := by
        simp [pairL]
      have hpairS : ∀ j2, pairL (a :: b :: r) (j2 + 1) = pairL (b :: r) j2 := by
        intro j2
        simp [pairL]
      by_cases hL : a.children.length + b.children.length < ml
      · have hstep : minScan (a :: b :: r) i (mk, ml)
            = minScan (b :: r) (i+1) (i, a.children.length + b.children.length) := by
          simp [minScan, hL]
        rcases ih (i+1) i (a.children.length + b.children.length) with
          ⟨heq, hall⟩ | ⟨j, hj, h1, h2, h3, h4, h5⟩
        · refine Or.inr ⟨0, by simp, ?_, ?_, by omega, ?_, by omega⟩
          · rw [hstep, heq]; simp
          · rw [hstep, heq, hpair0]
          · intro j2 hj2
            cases j2 with
            | zero => omega
            | succ j2' =>
              rw [hpairS, hpair0]
              have := hall j2' (by simpa using hj2)
              omega
        · refine Or.inr ⟨j+1, by simpa using hj, ?_, ?_, ?_, ?_, ?_⟩
          · rw [hstep, h1]; omega
          · rw [hstep, h2, hpairS]
          · rw [hpairS]; omega
          · intro j2 hj2
            cases j2 with
            | zero => rw [hpairS, hpair0]; omega
            | succ j2' =>
              rw [hpairS, hpairS]
              exact h4 _ (by simpa using hj2)
          · intro j2 hj2
            cases j2 with
            | zero => rw [hpairS, hpair0]; omega
            | succ j2' =>
              rw [hpairS, hpairS]
              exact h5 _ (by omega)
      · have hstep : minScan (a :: b :: r) i (mk, ml) = minScan (b :: r) (i+1) (mk, ml) := by
          simp [minScan, hL]
        rcases ih (i+1) mk ml with ⟨heq, hall⟩ | ⟨j, hj, h1, h2, h3, h4, h5⟩
        · refine Or.inl ⟨by rw [hstep, heq], ?_⟩
          intro j2 hj2
          cases j2 with
          | zero => rw [hpair0]; omega
          | succ j2' =>
            rw [hpairS]
            exact hall _ (by simpa using hj2)
        · refine Or.inr ⟨j+1, by simpa using hj, ?_, ?_, ?_, ?_, ?_⟩
          · rw [hstep, h1]; omega
          · rw [hstep, h2, hpairS]
          · rw [hpairS]; omega
          · intro j2 hj2
            cases j2 with
            | zero => rw [hpairS, hpair0]; omega
            | succ j2' =>
              rw [hpairS, hpairS]
              exact h4 _ (by simpa using hj2)
          · intro j2 hj2
            cases j2 with
            | zero => rw [hpairS, hpair0]; omega
            | succ j2' =>
              rw [hpairS, hpairS]
              exact h5 _ (by omega)

theorem rebalance_decrease_eq (t : Node) (d : Nat) :
    rebalance_decrease t d =
      if d ≤ 1 ∨ ((t.children.length : Int) - 1) ^ d < t.g ∨ (cleaned t).length ≤ 1 then
        Node.inner (if (cleaned t).length != 0 then ((cleaned t).headD dflt).key else t.key)
          t.g (cleaned t)
      else
        Node.inner
          (if ((cleaned t).take ((minScan (cleaned t) 0 (0, 2 ^ 999)).1)
              ++ [join ((cleaned t).getD ((minScan (cleaned t) 0 (0, 2 ^ 999)).1) dflt)
                  ((cleaned t).getD ((minScan (cleaned t) 0 (0, 2 ^ 999)).1 + 1) dflt)]
              ++ (cleaned t).drop ((minScan (cleaned t) 0 (0, 2 ^ 999)).1 + 2)).length != 0
            then (((cleaned t).take ((minScan (cleaned t) 0 (0, 2 ^ 999)).1)
              ++ [join ((cleaned t).getD ((minScan (cleaned t) 0 (0, 2 ^ 999)).1) dflt)
                  ((cleaned t).getD ((minScan (cleaned t) 0 (0, 2 ^ 999)).1 + 1) dflt)]
              ++ (cleaned t).drop ((minScan (cleaned t) 0 (0, 2 ^ 999)).1 + 2)).headD dflt).key
            else t.key)
          t.g
          ((cleaned t).take ((minScan (cleaned t) 0 (0, 2 ^ 999)).1)
              ++ [join ((cleaned t).getD ((minScan (cleaned t) 0 (0, 2 ^ 999)).1) dflt)
                  ((cleaned t).getD ((minScan (cleaned t) 0 (0, 2 ^ 999)).1 + 1) dflt)]
              ++ (cleaned t).drop ((minScan (cleaned t) 0 (0, 2 ^ 999)).1 + 2)) := rfl

/-- C5: `rebalance_decrease` first discards the children that have no
children of their own; it returns the cleaned node unmerged exactly when
`d ≤ 1`, or the count exceeds `(number of children - 1)^d` (the child
count before cleanup, as the source computes it), or at most one child
survives cleanup; otherwise it joins the first adjacent surviving pair of
minimal combined child count, and the returned key is the first surviving
child's key (the prior key if no child survives).  The width hypothesis
`hw` only excludes nodes wider than `2^998`, where the source's `2**999`
sentinel would stop acting as infinity. -/
theorem C5_rebalance_decrease_spec (t : Node) (d : Nat)
    (hw : ∀ u ∈ t.children, u.children.length < 2 ^ 998) :
    ((d ≤ 1 ∨ ((t.children.length : Int) - 1) ^ d < t.g ∨ (cleaned t).length ≤ 1) →
        rebalance_decrease t d = Node.inner
          (if 0 < (cleaned t).length then ((cleaned t).headD dflt).key else t.key)
          t.g (cleaned t))
    ∧ (¬ (d ≤ 1 ∨ ((t.children.length : Int) - 1) ^ d < t.g ∨ (cleaned t).length ≤ 1) →
        ∃ m, m + 1 < (cleaned t).length
          ∧ (∀ j, j + 1 < (cleaned t).length → pairL (cleaned t) m ≤ pairL (cleaned t) j)
          ∧ (∀ j, j < m → pairL (cleaned t) m < pairL (cleaned t) j)
          ∧ rebalance_decrease t d = Node.inner ((cleaned t).headD dflt).key t.g
              ((cleaned t).take m
                ++ [join ((cleaned t).getD m dflt) ((cleaned t).getD (m+1) dflt)]
                ++ (cleaned t).drop (m+2))) := by
  constructor
  · intro hcond
    rw [rebalance_decrease_eq, if_pos hcond]
    rcases hcl : cleaned t with _ | ⟨c0, cs0⟩ <;> simp [hcl]
  · intro hcond
    have hcond2 := hcond
    push_neg at hcond2
    obtain ⟨hd, hg, hlen⟩ := hcond2
    have hne : 1 < (cleaned t).length := by omega
    have hLbound : ∀ j, j + 1 < (cleaned t).length → pairL (cleaned t) j < 2 ^ 999 := by
      intro j hj
      have h1 := hw _ (List.mem_of_mem_filter (getD_mem (cleaned t) j (by omega)))
      have h2 := hw _ (List.mem_of_mem_filter (getD_mem (cleaned t) (j+1) (by omega)))
      have hpow : (2:Nat) ^ 999 = 2 ^ 998 + 2 ^ 998 := by ring
      unfold pairL
      omega
    rcases minScan_spec (cleaned t) 0 0 (2 ^ 999) with ⟨heq, hall⟩ | ⟨j, hj, h1, h2, h3, h4, h5⟩
    · exfalso
      have h0 : 0 + 1 < (cleaned t).length := by omega
      have := hall 0 h0
      have := hLbound 0 h0
      omega
    · have hm : (minScan (cleaned t) 0 (0, 2 ^ 999)).1 = j := by simpa using h1
      refine ⟨j, hj, h4, h5, ?_⟩
      rw [rebalance_decrease_eq, if_neg hcond, hm]
      have hnc : ((cleaned t).take j
            ++ [join ((cleaned t).getD j dflt) ((cleaned t).getD (j+1) dflt)]
            ++ (cleaned t).drop (j+2)).length != 0 := by
        simp
      rw [if_pos hnc]
      -- it remains to identify the head key of the merged list with the
      -- head key of the cleaned list, whether or not the merge is at 0
      rcases hcl : cleaned t with _ | ⟨c0, cs0⟩
      · rw [hcl] at hne
        simp at hne
      · cases j with
        | zero => simp [join, Node.key]
        | succ j' => simp

/-- Concrete node used to witness C5: three nonempty children, count 4,
so at depth 2 the merge branch fires (4 is not greater than `(3-1)^2`). -/
def exC5 : Node := Node.inner 1 4 [
  Node.inner 1 2 [Node.leaf 1 1 1, Node.leaf 2 1 4],
  Node.inner 3 1 [Node.leaf 3 1 9],
  Node.inner 4 1 [Node.leaf 4 1 16]]

set_option maxRecDepth 10000 in
/-- Witness for C5: the no-merge branch at depth 1 and the count
preservation of the merge branch at depth 2, on a concrete node. -/
theorem C5_rebalance_decrease_spec_witness :
    rebalance_decrease exC5 1
      = Node.inner (if 0 < (cleaned exC5).length then ((cleaned exC5).headD dflt).key
          else exC5.key) exC5.g (cleaned exC5)
    ∧ (rebalance_decrease exC5 2).g = exC5.g := by
  constructor
  · exact (C5_rebalance_decrease_spec exC5 1 (by decide)).1 (by decide)
  · obtain ⟨m, _, _, _, hsh⟩ :=
      (C5_rebalance_decrease_spec exC5 2 (by decide)).2 (by decide)
    rw [hsh]
    rfl

/-! ### Basic lemmas about the proof-side vocabulary -/

theorem entries_succ (t : Node) (d : Nat) :
    entries t (d+1) = (t.children.map (fun c => entries c d)).flatten := by
  cases t <;> rfl

theorem eKeys_succ (t : Node) (d : Nat) (x : Int) :
    x ∈ eKeys t (d+1) ↔ ∃ c ∈ t.children, x ∈ eKeys c d := by
  simp [eKeys, entries_succ, List.mem_flatten]

theorem allKeysLE_key {t : Node} {d : Nat} {bnd : Int} (h : allKeysLE t d bnd = true) :
    t.key ≤ bnd := by
  cases d <;> simp [allKeysLE] at h
  · exact h
  · exact h.1

theorem allKeysLE_child {t : Node} {d : Nat} {bnd : Int} (h : allKeysLE t (d+1) bnd = true) :
    ∀ c ∈ t.children, allKeysLE c d bnd = true := by
  simp [allKeysLE] at h
  exact h.2

theorem allKeysLE_mono {d : Nat} : ∀ {t : Node} {bnd bnd' : Int},
    bnd ≤ bnd' → allKeysLE t d bnd = true → allKeysLE t d bnd' = true := by
  induction d with
  | zero =>
    intro t bnd bnd' hb h
    simp [allKeysLE] at *
    omega
  | succ d ih =>
    intro t bnd bnd' hb h
    simp [allKeysLE] at *
    exact ⟨by omega, fun c hc => ih hb (h.2 c hc)⟩

theorem allKeysLE_entry {d : Nat} : ∀ {t : Node} {bnd x : Int},
    allKeysLE t d bnd = true → x ∈ eKeys t d → x ≤ bnd := by
  induction d with
  | zero =>
    intro t bnd x h hx
    cases t with
    | leaf k g v =>
      simp [eKeys, entries] at hx
      simp [allKeysLE] at h
      omega
    | inner k g cs => simp [eKeys, entries] at hx
  | succ d ih =>
    intro t bnd x h hx
    obtain ⟨c, hc, hxc⟩ := (eKeys_succ t d x).mp hx
    exact ih (allKeysLE_child h c hc) hxc

theorem allKeysLE_mk {d : Nat} {k g : Int} {cs : List Node} {bnd : Int}
    (hk : k ≤ bnd) (hcs : ∀ c ∈ cs, allKeysLE c d bnd = true) :
    allKeysLE (Node.inner k g cs) (d+1) bnd = true := by
  simp [allKeysLE]
  exact ⟨hk, hcs⟩

theorem pairOK_key_le {a b : Node} {d : Nat} (h : pairOK a b d = true) : a.key ≤ b.key := by
  simp [pairOK] at h
  exact allKeysLE_key h.2

theorem pairOK_entry_lt {a b : Node} {d : Nat} (h : pairOK a b d = true) :
    ∀ x ∈ eKeys a d, x < b.key := by
  simp [pairOK] at h
  exact h.1

theorem pairOK_allKeys {a b : Node} {d : Nat} (h : pairOK a b d = true) :
    allKeysLE a d b.key = true := by
  simp [pairOK] at h
  exact h.2

theorem pairOK_of {a b : Node} {d : Nat} (h1 : ∀ x ∈ eKeys a d, x < b.key)
    (h2 : allKeysLE a d b.key = true) : pairOK a b d = true := by
  simp [pairOK]
  exact ⟨h1, h2⟩

theorem pairOK_congr {a b b' : Node} {d : Nat} (h : b.key = b'.key) :
    pairOK a b d = pairOK a b' d := by
  simp [pairOK, h]

theorem pairOK_trans {a b c : Node} {d : Nat} (h1 : pairOK a b d = true)
    (h2 : pairOK b c d = true) : pairOK a c d = true := by
  have hbc : b.key ≤ c.key := pairOK_key_le h2
  refine pairOK_of (fun x hx => lt_of_lt_of_le (pairOK_entry_lt h1 x hx) hbc) ?_
  exact allKeysLE_mono hbc (pairOK_allKeys h1)

theorem adjOK_chain (cs : List Node) (d : Nat) :
    adjOK cs d = true ↔ List.Chain' (fun a b => pairOK a b d = true) cs := by
  induction cs with
  | nil => simp [adjOK]
  | cons a rest ih =>
    cases rest with
    | nil => simp [adjOK]
    | cons b r =>
      rw [List.chain'_cons, ← ih]
      simp [adjOK, Bool.and_eq_true]

theorem adjOK_pairwise (cs : List Node) (d : Nat) :
    adjOK cs d = true ↔ List.Pairwise (fun a b => pairOK a b d = true) cs := by
  haveI : IsTrans Node (fun a b => pairOK a b d = true) := ⟨fun _ _ _ => pairOK_trans⟩
  rw [adjOK_chain, List.chain'_iff_pairwise]

theorem adjOK_sublist {cs cs' : List Node} {d : Nat} (hsub : cs'.Sublist cs)
    (h : adjOK cs d = true) : adjOK cs' d = true :=
  (adjOK_pairwise cs' d).mpr (((adjOK_pairwise cs d).mp h).sublist hsub)

theorem adjOK_getD {cs : List Node} {d : Nat} (h : adjOK cs d = true) :
    ∀ j l, j < l → l < cs.length → pairOK (cs.getD j dflt) (cs.getD l dflt) d = true := by
  intro j l hjl hl
  have hp := (adjOK_pairwise cs d).mp h
  have hj : j < cs.length := lt_trans hjl hl
  have := (List.pairwise_iff_get.mp hp) ⟨j, hj⟩ ⟨l, hl⟩ hjl
  simpa [List.getD_eq_getElem, hj, hl] using this

theorem nav_isLeaf {t : Node} (h : nav t 0 = true) : t.isLeaf = true := h

theorem nav_succ_parts {t : Node} {d : Nat} (h : nav t (d+1) = true) :
    t.isInner = true ∧ headKeyOK t = true ∧ adjOK t.children d = true
    ∧ ∀ c ∈ t.children, nav c d = true := by
  simp [nav, Bool.and_eq_true] at h
  exact ⟨h.1.1.1, h.1.1.2, h.1.2, by simpa using h.2⟩

theorem nav_mk {t : Node} {d : Nat} (h1 : t.isInner = true) (h2 : headKeyOK t = true)
    (h3 : adjOK t.children d = true) (h4 : ∀ c ∈ t.children, nav c d = true) :
    nav t (d+1) = true := by
  simp [nav, Bool.and_eq_true]
  exact ⟨⟨⟨h1, h2⟩, h3⟩, by simpa using h4⟩

theorem headKeyOK_cons {t : Node} (h : headKeyOK t = true) (c : Node) (rest : List Node)
    (hc : t.children = c :: rest) : t.key = c.key := by
  unfold headKeyOK at h
  rw [hc] at h
  simpa using h

theorem nav_key_le_entry {d : Nat} : ∀ {t : Node} {x : Int},
    nav t d = true → x ∈ eKeys t d → t.key ≤ x := by
  induction d with
  | zero =>
    intro t x h hx
    cases t with
    | leaf k g v =>
      simp [eKeys, entries] at hx
      simp [hx]
    | inner k g cs => simp [nav, Node.isLeaf] at h
  | succ d ih =>
    intro t x h hx
    obtain ⟨c, hc, hxc⟩ := (eKeys_succ t d x).mp hx
    obtain ⟨_, hhead, hadj, hnav⟩ := nav_succ_parts h
    have hcx : c.key ≤ x := ih (hnav c hc) hxc
    rcases ht : t.children with _ | ⟨c0, rest⟩
    · rw [ht] at hc; simp at hc
    · have hkey := headKeyOK_cons hhead c0 rest ht
      rcases List.mem_cons.mp (ht ▸ hc) with rfl | hcr
      · omega
      · obtain ⟨j, hj, hgj⟩ := List.getElem_of_mem (l := rest) hcr
        have hpair : pairOK (t.children.getD 0 dflt) (t.children.getD (j+1) dflt) d = true := by
          apply adjOK_getD hadj 0 (j+1) (by omega)
          rw [ht]; simpa using hj
        rw [ht] at hpair
        simp only [List.getD_cons_zero, List.getD_cons_succ] at hpair
        have : rest.getD j dflt = c := by
          rw [List.getD_eq_getElem rest dflt hj, hgj]
        rw [this] at hpair
        have := pairOK_key_le hpair
        omega

/-! ### `get` computes association lookup in the entry list -/

theorem get_one (t : Node) (k : Int) : get t k 1 = scanVal t.children k := rfl

theorem get_step (t : Node) (k : Int) (d : Nat) :
    get t k (d+2) = get (t.children.getD (get_subindex t k) dflt) k (d+1) := rfl

theorem lookupE_append (A B : List (Int × Int)) (k : Int) :
    lookupE (A ++ B) k = match lookupE A k with
      | some v => some v
      | none => lookupE B k := by
  induction A with
  | nil => simp [lookupE]
  | cons p r ih =>
    by_cases hk : k = p.1
    · simp [lookupE, hk]
    · simp [lookupE, hk, ih]

theorem lookupE_none {E : List (Int × Int)} {k : Int} (h : ∀ x ∈ E.map Prod.fst, x ≠ k) :
    lookupE E k = none := by
  induction E with
  | nil => rfl
  | cons p r ih =>
    have hp : p.1 ≠ k := h p.1 (by simp)
    have hk : ¬ (k = p.1) := fun hkk => hp hkk.symm
    simp only [lookupE, if_neg hk]
    exact ih (fun x hx => h x (by simp [hx]))

theorem lookupE_append_left {A : List (Int × Int)} (B : List (Int × Int)) {k : Int}
    (h : ∀ x ∈ A.map Prod.fst, x ≠ k) : lookupE (A ++ B) k = lookupE B k := by
  rw [lookupE_append, lookupE_none h]

theorem lookupE_append_right {B : List (Int × Int)} (A : List (Int × Int)) {k : Int}
    (h : ∀ x ∈ B.map Prod.fst, x ≠ k) :
    lookupE (A ++ B) k = lookupE A k := by
  rw [lookupE_append]
  cases hA : lookupE A k
  · simp [lookupE_none h]
  · simp

theorem list_split_at (cs : List Node) (i : Nat) (hi : i < cs.length) :
    cs = cs.take i ++ cs.getD i dflt :: cs.drop (i+1) := by
  conv_lhs => rw [← List.take_append_drop i cs]
  rw [List.drop_eq_getElem_cons hi, List.getD_eq_getElem cs dflt hi]

theorem flatten_decomp (f : Node → List (Int × Int)) (cs : List Node) (i : Nat)
    (hi : i < cs.length) :
    (cs.map f).flatten
      = ((cs.take i).map f).flatten ++ f (cs.getD i dflt)
        ++ ((cs.drop (i+1)).map f).flatten := by
  conv_lhs => rw [list_split_at cs i hi]
  simp [List.append_assoc]

theorem entries_decomp (t : Node) (d : Nat) (i : Nat) (hi : i < t.children.length) :
    entries t (d+1)
      = ((t.children.take i).map (fun c => entries c d)).flatten
        ++ entries (t.children.getD i dflt) d
        ++ ((t.children.drop (i+1)).map (fun c => entries c d)).flatten := by
  rw [entries_succ]
  exact flatten_decomp _ _ i hi

theorem mem_eKeys_take {cs : List Node} {d i : Nat} {x : Int}
    (hx : x ∈ (((cs.take i).map (fun c => entries c d)).flatten).map Prod.fst) :
    ∃ j, j < i ∧ j < cs.length ∧ x ∈ eKeys (cs.getD j dflt) d := by
  simp only [List.mem_map, List.mem_flatten] at hx
  obtain ⟨p, ⟨l, ⟨c, hc, rfl⟩, hpl⟩, rfl⟩ := hx
  obtain ⟨j, hj, hgj⟩ := List.getElem_of_mem hc
  have h2 : (cs.take i).length = min i cs.length := by simp
  rw [h2] at hj
  refine ⟨j, by omega, by omega, ?_⟩
  have hceq : cs.getD j dflt = c := by
    rw [List.getD_eq_getElem cs dflt (by omega), ← hgj, List.getElem_take]
  rw [hceq]
  simp only [eKeys, List.mem_map]
  exact ⟨p, hpl, rfl⟩

theorem mem_eKeys_drop {cs : List Node} {d i : Nat} {x : Int}
    (hx : x ∈ (((cs.drop (i+1)).map (fun c => entries c d)).flatten).map Prod.fst) :
    ∃ j, i < j ∧ j < cs.length ∧ x ∈ eKeys (cs.getD j dflt) d := by
  simp only [List.mem_map, List.mem_flatten] at hx
  obtain ⟨p, ⟨l, ⟨c, hc, rfl⟩, hpl⟩, rfl⟩ := hx
  obtain ⟨j, hj, hgj⟩ := List.getElem_of_mem hc
  have h2 : (cs.drop (i+1)).length = cs.length - (i+1) := by simp
  rw [h2] at hj
  refine ⟨i + 1 + j, by omega, by omega, ?_⟩
  have hceq : cs.getD (i+1+j) dflt = c := by
    rw [List.getD_eq_getElem cs dflt (by omega), ← hgj, List.getElem_drop]
  rw [hceq]
  simp only [eKeys, List.mem_map]
  exact ⟨p, hpl, rfl⟩

theorem get_dflt (k : Int) : ∀ d, get dflt k d = none
  | 0 => rfl
  | 1 => rfl
  | (d+2) => get_dflt k (d+1)

theorem scanVal_lookup (cs : List Node) (k : Int) (h : ∀ c ∈ cs, c.isLeaf = true) :
    scanVal cs k = lookupE ((cs.map (fun c => entries c 0)).flatten) k := by
  induction cs with
  | nil => rfl
  | cons c rest ih =>
    cases c with
    | leaf kc gc vc =>
      simp only [scanVal, entries, List.map_cons, List.flatten_cons]
      by_cases hk : k = kc
      · simp [lookupE, hk]
      · simp only [lookupE, List.cons_append, List.nil_append]
        rw [if_neg hk, if_neg (by simpa using hk)]
        exact ih (fun u hu => h u (by simp [hu]))
    | inner kc gc ccs =>
      exact absurd (h (Node.inner kc gc ccs) (List.mem_cons_self _ _)) (by simp [Node.isLeaf])

/-- On a globally ordered tree, `get` is association lookup in the entry
list.  No nonemptiness is assumed: the lemma also covers the transient
zero-child nodes that rebalancing can create. -/
theorem get_eq_lookupE : ∀ (d : Nat) (t : Node) (k : Int), 1 ≤ d → nav t d = true →
    get t k d = lookupE (entries t d) k
  | 0, _, _, hd, _ => absurd hd (by omega)
  | 1, t, k, _, hn => by
    obtain ⟨hinner, _, _, hnav⟩ := nav_succ_parts hn
    rw [get_one, entries_succ]
    exact scanVal_lookup t.children k (fun c hc => nav_isLeaf (hnav c hc))
  | (d+2), t, k, _, hn => by
    obtain ⟨hinner, hhead, hadj, hnav⟩ := nav_succ_parts hn
    rcases Nat.eq_zero_or_pos t.children.length with hlen0 | h0
    · have hnil : t.children = [] := List.length_eq_zero.mp hlen0
      rw [get_step, hnil, entries_succ, hnil]
      show get dflt k (d+1) = _
      simp [get_dflt k (d+1), lookupE]
    · have hilt : get_subindex t k < t.children.length := by
        rw [get_subindex_eq]
        have := subLoop_le t.children k
        split <;> omega
      have hnavi : nav (t.children.getD (get_subindex t k) dflt) (d+1) = true :=
        hnav _ (getD_mem _ _ hilt)
      rw [get_step, get_eq_lookupE (d+1) _ k (by omega) hnavi,
        entries_decomp t (d+1) (get_subindex t k) hilt]
      have hA : ∀ x ∈ (((t.children.take (get_subindex t k)).map
          (fun c => entries c (d+1))).flatten).map Prod.fst, x ≠ k := by
        intro x hx
        obtain ⟨j, hji, hjlen, hxj⟩ := mem_eKeys_take hx
        have hpos : 0 < subLoop t.children k := by
          by_contra hz
          push_neg at hz
          have hz0 : subLoop t.children k = 0 := by omega
          have hiz : get_subindex t k = 0 := by
            rw [get_subindex_eq, hz0]
            simp
          omega
        have hile : get_subindex t k = subLoop t.children k - 1 := by
          rw [get_subindex_eq, if_pos hpos]
        have hikey : (t.children.getD (get_subindex t k) dflt).key ≤ k := by
          rw [hile]
          exact subLoop_mem_le t.children k _ (by omega)
        have hpair := adjOK_getD hadj j (get_subindex t k) hji hilt
        have := pairOK_entry_lt hpair x hxj
        omega
      have hB : ∀ x ∈ (((t.children.drop (get_subindex t k + 1)).map
          (fun c => entries c (d+1))).flatten).map Prod.fst, x ≠ k := by
        intro x hx
        obtain ⟨j, hij, hjlen, hxj⟩ := mem_eKeys_drop hx
        have hxge : (t.children.getD j dflt).key ≤ x :=
          nav_key_le_entry (hnav _ (getD_mem _ _ hjlen)) hxj
        have hsub_le_j : subLoop t.children k ≤ j := by
          rw [get_subindex_eq] at hij
          split at hij <;> omega
        have hsublt : subLoop t.children k < t.children.length := by omega
        have hklt : k < (t.children.getD (subLoop t.children k) dflt).key :=
          subLoop_stop _ _ hsublt
        rcases eq_or_lt_of_le hsub_le_j with heq | hlt
        · rw [heq] at hklt
          omega
        · have hpair := adjOK_getD hadj _ j hlt hjlen
          have hkk := pairOK_key_le hpair
          omega
      rw [List.append_assoc, lookupE_append_left _ hA, lookupE_append_right _ hB]

/-! ### Surgery lemmas and `add` unfoldings -/

theorem add_one (t : Node) (k v : Int) :
    add t k v 1 =
      if insLoop t.children k < t.children.length
          ∧ k = (t.children.getD (insLoop t.children k) dflt).key then
        Node.inner t.key t.g (t.children.take (insLoop t.children k)
          ++ [Node.leaf k 1 v] ++ t.children.drop (insLoop t.children k + 1))
      else
        Node.inner (min k t.key) (t.g + 1) (t.children.take (insLoop t.children k)
          ++ [Node.leaf k 1 v] ++ t.children.drop (insLoop t.children k)) := rfl

theorem add_step (t : Node) (k v : Int) (d : Nat) :
    add t k v (d+2) =
      rebalance_increase (Node.inner
        ((t.children.take (get_subindex t k)
            ++ [add (t.children.getD (get_subindex t k) dflt) k v (d+1)]
            ++ t.children.drop (get_subindex t k + 1)).headD dflt).key
        (t.g - (t.children.getD (get_subindex t k) dflt).g
          + ((t.children.take (get_subindex t k)
              ++ [add (t.children.getD (get_subindex t k) dflt) k v (d+1)]
              ++ t.children.drop (get_subindex t k + 1)).getD (get_subindex t k) dflt).g)
        (t.children.take (get_subindex t k)
            ++ [add (t.children.getD (get_subindex t k) dflt) k v (d+1)]
            ++ t.children.drop (get_subindex t k + 1)))
        (d+2) := rfl

theorem insLoop_le (cs : List Node) (k : Int) : insLoop cs k ≤ cs.length := by
  induction cs with
  | nil => simp [insLoop]
  | cons c rest ih =>
    simp only [insLoop, List.length_cons]
    split <;> omega

theorem insLoop_mem_lt (cs : List Node) (k : Int) :
    ∀ j, j < insLoop cs k → (cs.getD j dflt).key < k := by
  induction cs with
  | nil => simp [insLoop]
  | cons c rest ih =>
    intro j hj
    simp only [insLoop] at hj
    by_cases hc : c.key < k
    · simp only [if_pos hc] at hj
      cases j with
      | zero => simpa using hc
      | succ j' => simpa using ih j' (by omega)
    · simp [if_neg hc] at hj

theorem insLoop_stop (cs : List Node) (k : Int) :
    insLoop cs k < cs.length → k ≤ (cs.getD (insLoop cs k) dflt).key := by
  induction cs with
  | nil => simp [insLoop]
  | cons c rest ih =>
    intro h
    simp only [insLoop] at h ⊢
    by_cases hc : c.key < k
    · simp only [if_pos hc] at h ⊢
      simpa using ih (by simpa using h)
    · simp only [if_neg hc]
      simpa using le_of_not_lt hc

theorem surgery_getD (cs : List Node) (x : Node) (C : List Node) (i : Nat)
    (hi : i ≤ cs.length) : (cs.take i ++ x :: C).getD i dflt = x := by
  have hlen : (cs.take i).length = i := by simp [hi]
  rw [List.getD_append_right (cs.take i) (x :: C) dflt i (by omega)]
  simp [hlen]

theorem surgery_take (cs : List Node) (x : Node) (C : List Node) (i : Nat)
    (hi : i ≤ cs.length) : (cs.take i ++ x :: C).take i = cs.take i := by
  have hlen : (cs.take i).length = i := by simp [hi]
  rw [List.take_append_of_le_length (by omega), List.take_take]
  simp

theorem surgery_drop (cs : List Node) (x : Node) (C : List Node) (i : Nat)
    (hi : i ≤ cs.length) : (cs.take i ++ x :: C).drop (i+1) = C := by
  have hlen : (cs.take i).length = i := by simp [hi]
  have h1 : (cs.take i ++ x :: C).drop (i+1) = (x :: C).drop 1 := by
    have : i + 1 = (cs.take i).length + 1 := by omega
    rw [this, List.drop_append]
  simpa using h1

theorem surgery_headD (cs : List Node) (x : Node) (C : List Node) (i : Nat)
    (h0 : 0 < cs.length) (hi : 0 < i) :
    (cs.take i ++ x :: C).headD dflt = cs.headD dflt := by
  rcases cs with _ | ⟨c0, rest⟩
  · simp at h0
  · rcases i with _ | i'
    · omega
    · simp [List.take_cons]

theorem headD_drop (cs : List Node) (n : Nat) (hn : n < cs.length) :
    (cs.drop n).headD dflt = cs.getD n dflt := by
  rw [List.getD_eq_getElem cs dflt hn]
  rw [List.drop_eq_getElem_cons hn]
  rfl

theorem rebInc_key (t : Node) (d : Nat) : (rebalance_increase t d).key = t.key := by
  unfold rebalance_increase
  split
  · rfl
  · rfl

theorem rebInc_g (t : Node) (d : Nat) : (rebalance_increase t d).g = t.g := by
  unfold rebalance_increase
  split
  · rfl
  · rfl

theorem rebInc_isInner (t : Node) (d : Nat) (h : t.isInner = true) :
    (rebalance_increase t d).isInner = true := by
  unfold rebalance_increase
  split
  · exact h
  · rfl

theorem rebInc_children_ne (key g : Int) (nc : List Node) (d : Nat) (h : nc ≠ []) :
    (rebalance_increase (Node.inner key g nc) d).children ≠ [] := by
  unfold rebalance_increase
  split
  · simpa using h
  · simp

theorem maxScan_argmax (cs : List Node) (h0 : 0 < cs.length) :
    (maxScan cs 0 (0, 0)).1 < cs.length
    ∧ ∀ j, j < cs.length → (cs.getD j dflt).children.length
        ≤ (cs.getD (maxScan cs 0 (0, 0)).1 dflt).children.length := by
  rcases maxScan_spec cs 0 0 0 with ⟨heq, hall⟩ | ⟨j, hj, h1, h2, h3, h4, h5⟩
  · rw [heq]
    refine ⟨h0, fun j hjlen => ?_⟩
    have := hall _ (getD_mem _ _ hjlen)
    omega
  · simp only [Nat.zero_add] at h1
    rw [h1]
    exact ⟨hj, h4⟩

/-! ### `add` computes sorted insertion on the entry list -/

theorem entries_split (c : Node) (d : Nat) :
    entries (split c).1 (d+1) ++ entries (split c).2 (d+1) = entries c (d+1) := by
  show entries (Node.inner c.key (sumG (c.children.take (c.children.length / 2)))
      (c.children.take (c.children.length / 2))) (d+1)
    ++ entries (Node.inner ((c.children.drop (c.children.length / 2)).headD dflt).key
      (sumG (c.children.drop (c.children.length / 2)))
      (c.children.drop (c.children.length / 2))) (d+1) = entries c (d+1)
  rw [entries_succ, entries_succ, entries_succ]
  simp only [children_inner]
  rw [← List.flatten_append, ← List.map_append, List.take_append_drop]

theorem entries_leaf_succ (k g v : Int) (d : Nat) : entries (Node.leaf k g v) (d+1) = [] := by
  rw [entries_succ]
  rfl

theorem entries_rebInc (t : Node) (e : Nat) :
    entries (rebalance_increase t (e+2)) (e+2) = entries t (e+2) := by
  unfold rebalance_increase
  split
  · rfl
  · rcases Nat.eq_zero_or_pos t.children.length with hlen0 | h0
    · have hnil : t.children = [] := List.length_eq_zero.mp hlen0
      rw [entries_succ, entries_succ]
      simp only [children_inner, hnil, List.take_nil, List.drop_nil, List.nil_append,
        List.append_nil, List.map_cons, List.map_nil, List.flatten_cons, List.flatten_nil,
        List.map_nil, List.flatten_nil, List.append_nil]
      rw [entries_split]
      rfl
    · have hm := (maxScan_argmax t.children h0).1
      rw [entries_succ, entries_succ]
      simp only [children_inner]
      conv_rhs => rw [flatten_decomp (fun c => entries c (e+1)) t.children _ hm]
      rw [← entries_split (t.children.getD (maxScan t.children 0 (0, 0)).1 dflt) e]
      simp [List.append_assoc]

theorem insertE_append_left {k : Int} (v : Int) {A : List (Int × Int)}
    (C : List (Int × Int)) (h : ∀ x ∈ A.map Prod.fst, x < k) :
    insertE k v (A ++ C) = A ++ insertE k v C := by
  induction A with
  | nil => simp
  | cons p r ih =>
    have hp : p.1 < k := h p.1 (by simp)
    simp only [List.cons_append, insertE, if_pos hp, List.append_eq]
    rw [ih (fun x hx => h x (by simp [hx]))]

theorem insertE_append_right {k : Int} (v : Int) {B : List (Int × Int)}
    (M : List (Int × Int)) (h : ∀ x ∈ B.map Prod.fst, k < x) :
    insertE k v (M ++ B) = insertE k v M ++ B := by
  induction M with
  | nil =>
    simp only [List.nil_append, insertE]
    cases B with
    | nil => rfl
    | cons p r =>
      have hp : k < p.1 := h p.1 (by simp)
      simp only [insertE, if_neg (by omega : ¬ p.1 < k), if_neg (by omega : ¬ k = p.1)]
      rfl
  | cons p r ih =>
    by_cases h1 : p.1 < k
    · simp only [List.cons_append, insertE, if_pos h1, List.append_eq, ih]
    · by_cases h2 : k = p.1
      · simp only [List.cons_append, insertE, if_neg h1, if_pos h2, List.append_eq]
      · simp only [List.cons_append, insertE, if_neg h1, if_neg h2, List.append_eq]

theorem insertE_keys_sub {k v : Int} {E : List (Int × Int)} {x : Int}
    (hx : x ∈ (insertE k v E).map Prod.fst) : x ∈ E.map Prod.fst ∨ x = k := by
  induction E with
  | nil => simp [insertE] at hx; exact Or.inr hx
  | cons p r ih =>
    by_cases h1 : p.1 < k
    · simp only [insertE, if_pos h1, List.map_cons, List.mem_cons] at hx
      rcases hx with rfl | hx
      · exact Or.inl (by simp)
      · rcases ih hx with h | h
        · exact Or.inl (by simp [h])
        · exact Or.inr h
    · by_cases h2 : k = p.1
      · simp only [insertE, if_neg h1, if_pos h2, List.map_cons, List.mem_cons] at hx
        rcases hx with rfl | hx
        · exact Or.inr rfl
        · exact Or.inl (by simp [hx])
      · simp only [insertE, if_neg h1, if_neg h2, List.map_cons, List.mem_cons] at hx
        rcases hx with rfl | hx
        · exact Or.inr rfl
        · exact Or.inl (by simpa using hx)

theorem lookupE_insertE (k v : Int) (E : List (Int × Int)) :
    lookupE (insertE k v E) k = some v := by
  induction E with
  | nil => simp [insertE, lookupE]
  | cons p r ih =>
    by_cases h1 : p.1 < k
    · simp only [insertE, if_pos h1, lookupE, if_neg (by omega : ¬ k = p.1)]
      exact ih
    · by_cases h2 : k = p.1
      · simp [insertE, if_neg h1, if_pos h2, lookupE]
      · simp [insertE, if_neg h1, if_neg h2, lookupE]

theorem entries_add_base (cs : List Node) (k v : Int) (h : ∀ c ∈ cs, c.isLeaf = true) :
    ((if insLoop cs k < cs.length ∧ k = (cs.getD (insLoop cs k) dflt).key then
        cs.take (insLoop cs k) ++ [Node.leaf k 1 v] ++ cs.drop (insLoop cs k + 1)
      else
        cs.take (insLoop cs k) ++ [Node.leaf k 1 v] ++ cs.drop (insLoop cs k)).map
      (fun c => entries c 0)).flatten
    = insertE k v ((cs.map (fun c => entries c 0)).flatten) := by
  induction cs with
  | nil => simp [insLoop, insertE, entries]
  | cons c rest ih =>
    cases c with
    | leaf kc gc vc =>
      by_cases hc : kc < k
      · have hloop : insLoop (Node.leaf kc gc vc :: rest) k = insLoop rest k + 1 := by
          simp [insLoop, hc]
        have hcond : (insLoop (Node.leaf kc gc vc :: rest) k
              < (Node.leaf kc gc vc :: rest).length
            ∧ k = ((Node.leaf kc gc vc :: rest).getD
                (insLoop (Node.leaf kc gc vc :: rest) k) dflt).key)
            ↔ (insLoop rest k < rest.length
              ∧ k = (rest.getD (insLoop rest k) dflt).key) := by
          rw [hloop]
          simp
        have hih := ih (fun u hu => h u (by simp [hu]))
        by_cases hcnd : insLoop rest k < rest.length
            ∧ k = (rest.getD (insLoop rest k) dflt).key
        · rw [if_pos (hcond.mpr hcnd), if_pos hcnd] at *
          rw [hloop]
          simp only [List.take_succ_cons, List.drop_succ_cons, List.cons_append,
            List.map_cons, List.flatten_cons, entries]
          rw [hih]
          simp [insertE, hc]
        · rw [if_neg (fun hx => hcnd (hcond.mp hx)), if_neg hcnd] at *
          rw [hloop]
          simp only [List.take_succ_cons, List.drop_succ_cons, List.cons_append,
            List.map_cons, List.flatten_cons, entries]
          rw [hih]
          simp [insertE, hc]
      · have hloop : insLoop (Node.leaf kc gc vc :: rest) k = 0 := by
          simp [insLoop, hc]
        by_cases hk : k = kc
        · have hcond : insLoop (Node.leaf kc gc vc :: rest) k
              < (Node.leaf kc gc vc :: rest).length
              ∧ k = ((Node.leaf kc gc vc :: rest).getD
                  (insLoop (Node.leaf kc gc vc :: rest) k) dflt).key := by
            rw [hloop]
            simpa using hk
          rw [if_pos hcond, hloop]
          simp only [List.take_zero, List.drop_succ_cons, List.drop_zero, List.nil_append,
            List.cons_append, List.map_cons, List.flatten_cons, entries]
          simp [insertE, hc, hk]
        · have hcond : ¬ (insLoop (Node.leaf kc gc vc :: rest) k
              < (Node.leaf kc gc vc :: rest).length
              ∧ k = ((Node.leaf kc gc vc :: rest).getD
                  (insLoop (Node.leaf kc gc vc :: rest) k) dflt).key) := by
            rw [hloop]
            simpa using hk
          rw [if_neg hcond, hloop]
          simp only [List.take_zero, List.drop_zero, List.nil_append, List.cons_append,
            List.map_cons, List.flatten_cons, entries]
          simp [insertE, hc, hk]
    | inner kc gc ccs =>
      exact absurd (h (Node.inner kc gc ccs) (List.mem_cons_self _ _)) (by simp [Node.isLeaf])

/-- Leaf keys strictly left of the subindex position are below `k`. -/
theorem subindex_take_lt {t : Node} {k : Int} {d : Nat} (hadj : adjOK t.children d = true)
    (hilt : get_subindex t k < t.children.length) :
    ∀ x ∈ (((t.children.take (get_subindex t k)).map
        (fun c => entries c d)).flatten).map Prod.fst, x < k := by
  intro x hx
  obtain ⟨j, hji, hjlen, hxj⟩ := mem_eKeys_take hx
  have hpos : 0 < subLoop t.children k := by
    by_contra hz
    push_neg at hz
    have hz0 : subLoop t.children k = 0 := by omega
    have hiz : get_subindex t k = 0 := by
      rw [get_subindex_eq, hz0]
      simp
    omega
  have hile : get_subindex t k = subLoop t.children k - 1 := by
    rw [get_subindex_eq, if_pos hpos]
  have hikey : (t.children.getD (get_subindex t k) dflt).key ≤ k := by
    rw [hile]
    exact subLoop_mem_le t.children k _ (by omega)
  have hpair := adjOK_getD hadj j (get_subindex t k) hji hilt
  have := pairOK_entry_lt hpair x hxj
  omega

/-- Leaf keys strictly right of the subindex position are above `k`. -/
theorem subindex_drop_gt {t : Node} {k : Int} {d : Nat} (hadj : adjOK t.children d = true)
    (hnav : ∀ c ∈ t.children, nav c d = true) :
    ∀ x ∈ (((t.children.drop (get_subindex t k + 1)).map
        (fun c => entries c d)).flatten).map Prod.fst, k < x := by
  intro x hx
  obtain ⟨j, hij, hjlen, hxj⟩ := mem_eKeys_drop hx
  have hxge : (t.children.getD j dflt).key ≤ x :=
    nav_key_le_entry (hnav _ (getD_mem _ _ hjlen)) hxj
  have hsub_le_j : subLoop t.children k ≤ j := by
    rw [get_subindex_eq] at hij
    split at hij <;> omega
  have hsublt : subLoop t.children k < t.children.length := by omega
  have hklt : k < (t.children.getD (subLoop t.children k) dflt).key :=
    subLoop_stop _ _ hsublt
  rcases eq_or_lt_of_le hsub_le_j with heq | hlt
  · rw [heq] at hklt
    omega
  · have hpair := adjOK_getD hadj _ j hlt hjlen
    have hkk := pairOK_key_le hpair
    omega

theorem proper_parts {t : Node} {d : Nat} (h : proper t (d+1) = true) :
    0 < t.children.length ∧ ∀ c ∈ t.children, proper c d = true := by
  simp [proper] at h
  exact h

/-- On a globally ordered proper tree, `add` computes sorted
insert-or-replace on the entry list. -/
theorem entries_add : ∀ (d : Nat) (t : Node) (k v : Int), 1 ≤ d → nav t d = true →
    proper t d = true →
    entries (add t k v d) d = insertE k v (entries t d)
  | 0, _, _, _, hd, _, _ => absurd hd (by omega)
  | 1, t, k, v, _, hn, _ => by
    obtain ⟨hinner, _, _, hnav⟩ := nav_succ_parts hn
    have hbase := entries_add_base t.children k v (fun c hc => nav_isLeaf (hnav c hc))
    rw [add_one]
    split
    · rw [if_pos (by assumption)] at hbase
      rw [entries_succ]
      simp only [children_inner]
      rw [hbase, entries_succ]
    · rw [if_neg (by assumption)] at hbase
      rw [entries_succ]
      simp only [children_inner]
      rw [hbase, entries_succ]
  | (d+2), t, k, v, _, hn, hp => by
    obtain ⟨hinner, hhead, hadj, hnav⟩ := nav_succ_parts hn
    obtain ⟨h0, hprop⟩ := proper_parts hp
    have hilt : get_subindex t k < t.children.length := by
      rw [get_subindex_eq]
      have := subLoop_le t.children k
      split <;> omega
    have hle : get_subindex t k ≤ t.children.length := by omega
    rw [add_step]
    rw [entries_rebInc]
    rw [entries_succ]
    simp only [children_inner]
    have hsplit : t.children.take (get_subindex t k)
        ++ [add (t.children.getD (get_subindex t k) dflt) k v (d+1)]
        ++ t.children.drop (get_subindex t k + 1)
        = t.children.take (get_subindex t k)
          ++ add (t.children.getD (get_subindex t k) dflt) k v (d+1)
            :: t.children.drop (get_subindex t k + 1) := by
      simp
    rw [hsplit, List.map_append, List.flatten_append, List.map_cons, List.flatten_cons]
    rw [entries_add (d+1) _ k v (by omega) (hnav _ (getD_mem _ _ hilt))
      (hprop _ (getD_mem _ _ hilt))]
    conv_rhs => rw [entries_decomp t (d+1) (get_subindex t k) hilt]
    rw [List.append_assoc, insertE_append_left v _ (subindex_take_lt hadj hilt),
      insertE_append_right v _ (subindex_drop_gt hadj hnav)]

/-! ### `add` preserves global ordering -/

theorem mem_take_idx {cs : List Node} {i : Nat} {a : Node} (ha : a ∈ cs.take i) :
    ∃ p, p < i ∧ p < cs.length ∧ cs.getD p dflt = a := by
  obtain ⟨p, hp, hgp⟩ := List.getElem_of_mem ha
  have h2 : (cs.take i).length = min i cs.length := by simp
  rw [h2] at hp
  refine ⟨p, by omega, by omega, ?_⟩
  rw [List.getD_eq_getElem cs dflt (by omega), ← hgp, List.getElem_take]

theorem mem_drop_idx {cs : List Node} {j : Nat} {b : Node} (hb : b ∈ cs.drop j) :
    ∃ q, j + q < cs.length ∧ cs.getD (j + q) dflt = b := by
  obtain ⟨q, hq, hgq⟩ := List.getElem_of_mem hb
  have h2 : (cs.drop j).length = cs.length - j := by simp
  rw [h2] at hq
  refine ⟨q, by omega, ?_⟩
  rw [List.getD_eq_getElem cs dflt (by omega), ← hgq, List.getElem_drop]

theorem adjOK_insert_mid (A : List Node) (x : Node) (B : List Node) (d : Nat)
    (hA : adjOK A d = true) (hB : adjOK B d = true)
    (hAB : ∀ a ∈ A, ∀ b ∈ B, pairOK a b d = true)
    (hAx : ∀ a ∈ A, pairOK a x d = true)
    (hxB : ∀ b ∈ B, pairOK x b d = true) :
    adjOK (A ++ x :: B) d = true := by
  rw [adjOK_pairwise]
  rw [List.pairwise_append]
  refine ⟨(adjOK_pairwise A d).mp hA, ?_, ?_⟩
  · rw [List.pairwise_cons]
    exact ⟨hxB, (adjOK_pairwise B d).mp hB⟩
  · intro a ha b hb
    rcases List.mem_cons.mp hb with rfl | hbB
    · exact hAx a ha
    · exact hAB a ha b hbB

theorem adjOK_insert_two (A : List Node) (x y : Node) (B : List Node) (d : Nat)
    (hA : adjOK A d = true) (hB : adjOK B d = true) (hxy : pairOK x y d = true)
    (hAB : ∀ a ∈ A, ∀ b ∈ B, pairOK a b d = true)
    (hAx : ∀ a ∈ A, pairOK a x d = true) (hAy : ∀ a ∈ A, pairOK a y d = true)
    (hxB : ∀ b ∈ B, pairOK x b d = true) (hyB : ∀ b ∈ B, pairOK y b d = true) :
    adjOK (A ++ x :: y :: B) d = true := by
  rw [adjOK_pairwise, List.pairwise_append]
  refine ⟨(adjOK_pairwise A d).mp hA, ?_, ?_⟩
  · rw [List.pairwise_cons]
    refine ⟨?_, ?_⟩
    · intro b hb
      rcases List.mem_cons.mp hb with rfl | hbB
      · exact hxy
      · exact hxB b hbB
    · rw [List.pairwise_cons]
      exact ⟨hyB, (adjOK_pairwise B d).mp hB⟩
  · intro a ha b hb
    rcases List.mem_cons.mp hb with rfl | hb2
    · exact hAx a ha
    · rcases List.mem_cons.mp hb2 with rfl | hbB
      · exact hAy a ha
      · exact hAB a ha b hbB

theorem adjOK_take_drop {cs : List Node} {d : Nat} (h : adjOK cs d = true) {i j : Nat}
    (hij : i ≤ j) : ∀ a ∈ cs.take i, ∀ b ∈ cs.drop j, pairOK a b d = true := by
  intro a ha b hb
  obtain ⟨p, hpi, hplen, hgp⟩ := mem_take_idx ha
  obtain ⟨q, hq, hgq⟩ := mem_drop_idx hb
  rw [← hgp, ← hgq]
  exact adjOK_getD h p (j + q) (by omega) hq

theorem add_children_ne : ∀ (d : Nat) (t : Node) (k v : Int), 1 ≤ d →
    (add t k v d).children ≠ []
  | 0, _, _, _, hd => absurd hd (by omega)
  | 1, t, k, v, _ => by
    rw [add_one]
    split <;>
    · intro hnil
      simp at hnil
  | (d+2), t, k, v, _ => by
    rw [add_step]
    apply rebInc_children_ne
    intro hnil
    simp at hnil

theorem add_isInner : ∀ (d : Nat) (t : Node) (k v : Int), 1 ≤ d →
    (add t k v d).isInner = true
  | 0, _, _, _, hd => absurd hd (by omega)
  | 1, t, k, v, _ => by
    rw [add_one]
    split <;> rfl
  | (d+2), t, k, v, _ => by
    rw [add_step]
    exact rebInc_isInner _ _ rfl

/-- Keys of a node are preserved by `rebalance_increase`: the two split
halves carry the split child's key and one of its grandchildren's keys.
The hypothesis `hwm` (the widest child has a child) always holds where
`add` rebalances, since the freshly updated child is nonempty. -/
theorem rebInc_allKeys (key g : Int) (nc : List Node) (e : Nat) (bnd : Int)
    (h : allKeysLE (Node.inner key g nc) (e+2) bnd = true)
    (hwm : (nc.getD (maxScan nc 0 (0, 0)).1 dflt).children ≠ []) :
    allKeysLE (rebalance_increase (Node.inner key g nc) (e+2)) (e+2) bnd = true := by
  have hkey : key ≤ bnd := by simpa using allKeysLE_key h
  have hch : ∀ c ∈ nc, allKeysLE c (e+1) bnd = true := by
    have := allKeysLE_child h
    simpa using this
  have hne : nc ≠ [] := by
    intro hnil
    rw [hnil] at hwm
    exact hwm rfl
  have h0 : 0 < nc.length := List.length_pos.mpr hne
  obtain ⟨hmlt, _⟩ := maxScan_argmax nc h0
  unfold rebalance_increase
  split
  · exact h
  · simp only [children_inner, key_inner, g_inner]
    have hcm : allKeysLE (nc.getD (maxScan nc 0 (0, 0)).1 dflt) (e+1) bnd = true :=
      hch _ (getD_mem _ _ hmlt)
    have hcmkey : (nc.getD (maxScan nc 0 (0, 0)).1 dflt).key ≤ bnd := allKeysLE_key hcm
    have hcmch := allKeysLE_child hcm
    have hcmc0 : 0 < (nc.getD (maxScan nc 0 (0, 0)).1 dflt).children.length :=
      List.length_pos.mpr hwm
    have hhalf : (nc.getD (maxScan nc 0 (0, 0)).1 dflt).children.length / 2
        < (nc.getD (maxScan nc 0 (0, 0)).1 dflt).children.length :=
      Nat.div_lt_self hcmc0 (by norm_num)
    refine allKeysLE_mk hkey ?_
    intro c hc
    rcases List.mem_append.mp hc with hc1 | hc2
    · rcases List.mem_append.mp hc1 with hc3 | hc4
      · exact hch c (List.mem_of_mem_take hc3)
      · rcases List.mem_cons.mp hc4 with rfl | hc5
        · -- the lower split half
          show allKeysLE (Node.inner (nc.getD (maxScan nc 0 (0, 0)).1 dflt).key _ _)
              (e+1) bnd = true
          refine allKeysLE_mk hcmkey ?_
          intro u hu
          exact hcmch u (List.mem_of_mem_take hu)
        · rcases List.mem_cons.mp hc5 with rfl | hc6
          · -- the upper split half
            have hbkey : (((nc.getD (maxScan nc 0 (0, 0)).1 dflt).children.drop
                ((nc.getD (maxScan nc 0 (0, 0)).1 dflt).children.length / 2)).headD
                dflt).key ≤ bnd := by
              rw [headD_drop _ _ hhalf]
              exact allKeysLE_key (hcmch _ (getD_mem _ _ hhalf))
            show allKeysLE (Node.inner _ _ _) (e+1) bnd = true
            refine allKeysLE_mk (by simpa using hbkey) ?_
            intro u hu
            exact hcmch u (List.mem_of_mem_drop hu)
          · simp at hc6
    · exact hch c (List.mem_of_mem_drop hc2)

/-- Adding into the default node produces keys bounded by `min k 0` and
`k`; only `k ≤ bnd` is needed. -/
theorem add_dflt_allKeys : ∀ (d : Nat) (k v bnd : Int), 1 ≤ d → k ≤ bnd →
    allKeysLE (add dflt k v d) d bnd = true
  | 0, _, _, _, hd, _ => absurd hd (by omega)
  | 1, k, v, bnd, _, hk => by
    rw [add_one]
    split
    · rename_i hcnd
      simp [dflt, insLoop] at hcnd
    · refine allKeysLE_mk (by simp [dflt, min_le_iff]; omega) ?_
      intro c hc
      simp [dflt, insLoop] at hc
      rw [hc]
      simp [allKeysLE]
      omega
  | (d+2), k, v, bnd, _, hk => by
    have hrec : allKeysLE (add dflt k v (d+1)) (d+1) bnd = true :=
      add_dflt_allKeys (d+1) k v bnd (by omega) hk
    rw [add_step]
    have hsub : get_subindex dflt k = 0 := rfl
    have hgd : (dflt.children.getD (get_subindex dflt k) dflt) = dflt := rfl
    have hnc : dflt.children.take (get_subindex dflt k)
        ++ [add (dflt.children.getD (get_subindex dflt k) dflt) k v (d+1)]
        ++ dflt.children.drop (get_subindex dflt k + 1)
        = [add dflt k v (d+1)] := rfl
    rw [hnc, hgd]
    refine rebInc_allKeys _ _ _ d bnd ?_ ?_
    · refine allKeysLE_mk ?_ ?_
      · simpa using allKeysLE_key hrec
      · intro c hc
        rcases List.mem_singleton.mp hc with rfl
        exact hrec
    · have hrecne := add_children_ne (d+1) dflt k v (by omega)
      have hm : (maxScan [add dflt k v (d+1)] 0 (0, 0)).1 = 0 := by
        obtain ⟨hmlt, _⟩ := maxScan_argmax [add dflt k v (d+1)] (by simp)
        have hmlt2 : (maxScan [add dflt k v (d+1)] 0 (0, 0)).1 < 1 := by simpa using hmlt
        omega
      rw [hm]
      simpa using hrecne

theorem add_allKeys : ∀ (d : Nat) (t : Node) (k v bnd : Int), 1 ≤ d →
    allKeysLE t d bnd = true → k ≤ bnd → allKeysLE (add t k v d) d bnd = true
  | 0, _, _, _, _, hd, _, _ => absurd hd (by omega)
  | 1, t, k, v, bnd, _, ht, hk => by
    have hkey : t.key ≤ bnd := allKeysLE_key ht
    have hch := allKeysLE_child ht
    rw [add_one]
    split
    · refine allKeysLE_mk hkey ?_
      intro c hc
      rcases List.mem_append.mp hc with hc1 | hc2
      · rcases List.mem_append.mp hc1 with hc3 | hc4
        · exact hch c (List.mem_of_mem_take hc3)
        · rcases List.mem_singleton.mp hc4 with rfl
          simp [allKeysLE]
          omega
      · exact hch c (List.mem_of_mem_drop hc2)
    · refine allKeysLE_mk (le_trans (min_le_left k t.key) hk) ?_
      intro c hc
      rcases List.mem_append.mp hc with hc1 | hc2
      · rcases List.mem_append.mp hc1 with hc3 | hc4
        · exact hch c (List.mem_of_mem_take hc3)
        · rcases List.mem_singleton.mp hc4 with rfl
          simp [allKeysLE]
          omega
      · exact hch c (List.mem_of_mem_drop hc2)
  | (d+2), t, k, v, bnd, _, ht, hk => by
    have hkey : t.key ≤ bnd := allKeysLE_key ht
    have hch := allKeysLE_child ht
    have hrec : allKeysLE (add (t.children.getD (get_subindex t k) dflt) k v (d+1))
        (d+1) bnd = true := by
      rcases Nat.eq_zero_or_pos t.children.length with hlen0 | h0
      · have hnil : t.children = [] := List.length_eq_zero.mp hlen0
        rw [hnil]
        show allKeysLE (add dflt k v (d+1)) (d+1) bnd = true
        exact add_dflt_allKeys (d+1) k v bnd (by omega) hk
      · have hilt : get_subindex t k < t.children.length := by
          rw [get_subindex_eq]
          have := subLoop_le t.children k
          split <;> omega
        exact add_allKeys (d+1) _ k v bnd (by omega) (hch _ (getD_mem _ _ hilt)) hk
    have hchn : ∀ c ∈ t.children.take (get_subindex t k)
        ++ [add (t.children.getD (get_subindex t k) dflt) k v (d+1)]
        ++ t.children.drop (get_subindex t k + 1), allKeysLE c (d+1) bnd = true := by
      intro c hc
      rcases List.mem_append.mp hc with hc1 | hc2
      · rcases List.mem_append.mp hc1 with hc3 | hc4
        · exact hch c (List.mem_of_mem_take hc3)
        · rcases List.mem_singleton.mp hc4 with rfl
          exact hrec
      · exact hch c (List.mem_of_mem_drop hc2)
    rw [add_step]
    refine rebInc_allKeys _ _ _ d bnd ?_ ?_
    · refine allKeysLE_mk ?_ (by simpa using hchn)
      rcases hlist : t.children.take (get_subindex t k)
          ++ [add (t.children.getD (get_subindex t k) dflt) k v (d+1)]
          ++ t.children.drop (get_subindex t k + 1) with _ | ⟨c0, rest⟩
      · have := congrArg List.length hlist
        simp at this
      · have hc0 : c0 ∈ t.children.take (get_subindex t k)
            ++ [add (t.children.getD (get_subindex t k) dflt) k v (d+1)]
            ++ t.children.drop (get_subindex t k + 1) := by
          rw [hlist]
          simp
        have := allKeysLE_key (hchn c0 hc0)
        simpa [hlist] using this
    · -- the widest child of the new list is at least as wide as the updated
      -- child, which is nonempty
      have hlen : get_subindex t k ≤ t.children.length := by
        rw [get_subindex_eq]
        have := subLoop_le t.children k
        split <;> omega
    -- helper facts
      have hnc0 : 0 < (t.children.take (get_subindex t k)
          ++ [add (t.children.getD (get_subindex t k) dflt) k v (d+1)]
          ++ t.children.drop (get_subindex t k + 1)).length := by
        simp
      obtain ⟨hmlt, hmax⟩ := maxScan_argmax _ hnc0
      have hgi : (t.children.take (get_subindex t k)
          ++ [add (t.children.getD (get_subindex t k) dflt) k v (d+1)]
          ++ t.children.drop (get_subindex t k + 1)).getD (get_subindex t k) dflt
          = add (t.children.getD (get_subindex t k) dflt) k v (d+1) := by
        have := surgery_getD t.children
          (add (t.children.getD (get_subindex t k) dflt) k v (d+1))
          (t.children.drop (get_subindex t k + 1)) (get_subindex t k) hlen
        simpa using this
      have hilen : get_subindex t k < (t.children.take (get_subindex t k)
          ++ [add (t.children.getD (get_subindex t k) dflt) k v (d+1)]
          ++ t.children.drop (get_subindex t k + 1)).length := by
        simp
        omega
      have hwid := hmax (get_subindex t k) hilen
      rw [hgi] at hwid
      have hrecne := add_children_ne (d+1) (t.children.getD (get_subindex t k) dflt) k v
        (by omega)
      have hrecpos : 0 < (add (t.children.getD (get_subindex t k) dflt) k v
          (d+1)).children.length := List.length_pos.mpr hrecne
      intro hnil
      rw [hnil] at hwid
      simp only [List.length_nil, Nat.le_zero, List.length_eq_zero] at hwid
      exact hrecne hwid

theorem headD_eq_getD_zero (cs : List Node) (h : cs ≠ []) :
    cs.headD dflt = cs.getD 0 dflt := by
  cases cs with
  | nil => exact absurd rfl h
  | cons c r => rfl

theorem headKeyOK_key (t : Node) (h : headKeyOK t = true) (h0 : 0 < t.children.length) :
    t.key = (t.children.getD 0 dflt).key := by
  rcases hcs : t.children with _ | ⟨c0, rest⟩
  · rw [hcs] at h0
    simp at h0
  · rw [headKeyOK_cons h c0 rest hcs]
    simp

theorem add_key : ∀ (d : Nat) (t : Node) (k v : Int), 1 ≤ d → nav t d = true →
    proper t d = true → (add t k v d).key = min k t.key
  | 0, _, _, _, hd, _, _ => absurd hd (by omega)
  | 1, t, k, v, _, hn, hp => by
    obtain ⟨hinner, hhead, hadj, hnav⟩ := nav_succ_parts hn
    obtain ⟨h0, _⟩ := proper_parts hp
    rw [add_one]
    split
    · rename_i hcnd
      have hkey0 : t.key = (t.children.getD 0 dflt).key := headKeyOK_key t hhead h0
      have htk : t.key ≤ k := by
        rcases Nat.eq_zero_or_pos (insLoop t.children k) with hz | hpos
        · have hk0 : k = (t.children.getD 0 dflt).key := by
            rw [← hz]
            exact hcnd.2
          omega
        · have := adjOK_getD hadj 0 (insLoop t.children k) hpos hcnd.1
          have hle := pairOK_key_le this
          have hk2 := hcnd.2
          omega
      simp [min_eq_right htk]
    · rfl
  | (d+2), t, k, v, _, hn, hp => by
    obtain ⟨hinner, hhead, hadj, hnav⟩ := nav_succ_parts hn
    obtain ⟨h0, hprop⟩ := proper_parts hp
    have hilt : get_subindex t k < t.children.length := by
      rw [get_subindex_eq]
      have := subLoop_le t.children k
      split <;> omega
    have hkey0 : t.key = (t.children.getD 0 dflt).key := headKeyOK_key t hhead h0
    rw [add_step, rebInc_key]
    simp only [key_inner]
    rcases Nat.eq_zero_or_pos (get_subindex t k) with hz | hpos
    · rw [hz]
      have hne : t.children.take 0
          ++ [add (t.children.getD 0 dflt) k v (d+1)]
          ++ t.children.drop 1 ≠ [] := by
        simp
      have hgd0 : ((t.children.take 0 ++ [add (t.children.getD 0 dflt) k v (d+1)]
          ++ t.children.drop 1).getD 0 dflt) = add (t.children.getD 0 dflt) k v (d+1) := by
        simp
      rw [headD_eq_getD_zero _ hne, hgd0]
      rw [add_key (d+1) _ k v (by omega) (hnav _ (getD_mem _ _ (by omega)))
        (hprop _ (getD_mem _ _ (by omega))), hkey0]
    · have hpos' : 0 < subLoop t.children k := by
        rw [get_subindex_eq] at hpos
        split at hpos <;> omega
      have htk : t.key ≤ k := by
        have := subLoop_mem_le t.children k 0 hpos'
        omega
      have hassoc : t.children.take (get_subindex t k)
          ++ [add (t.children.getD (get_subindex t k) dflt) k v (d+1)]
          ++ t.children.drop (get_subindex t k + 1)
          = t.children.take (get_subindex t k)
            ++ add (t.children.getD (get_subindex t k) dflt) k v (d+1)
              :: t.children.drop (get_subindex t k + 1) := by
        simp
      rw [hassoc, surgery_headD t.children _ _ _ h0 hpos]
      rw [headD_eq_getD_zero _ (by intro hnil; rw [hnil] at h0; simp at h0), ← hkey0]
      omega

theorem headKeyOK_of_key_eq (t : Node) (h0 : 0 < t.children.length)
    (h : t.key = (t.children.getD 0 dflt).key) : headKeyOK t = true := by
  unfold headKeyOK
  rcases hcs : t.children with _ | ⟨c0, rest⟩
  · rfl
  · rw [hcs] at h
    simp at h
    simpa using h

theorem getD_zero_take (cs : List Node) (m : Nat) (hm : 0 < m) :
    (cs.take m).getD 0 dflt = cs.getD 0 dflt := by
  cases cs with
  | nil => simp
  | cons c r =>
    cases m with
    | zero => omega
    | succ m' => simp

theorem headKeyOK_take (t : Node) (h : headKeyOK t = true) (n : Nat) (g2 : Int) :
    headKeyOK (Node.inner t.key g2 (t.children.take n)) = true := by
  unfold headKeyOK at h ⊢
  simp only [children_inner, key_inner]
  rcases ht : t.children with _ | ⟨c0, r⟩
  · simp
  · cases n with
    | zero => simp
    | succ n' =>
      rw [List.take_succ_cons]
      rw [ht] at h
      simpa using h

theorem headKeyOK_headD (cs : List Node) (g2 : Int) :
    headKeyOK (Node.inner (cs.headD dflt).key g2 cs) = true := by
  unfold headKeyOK
  cases cs <;> simp

theorem nav_rebInc (key g : Int) (nc : List Node) (e : Nat)
    (hn : nav (Node.inner key g nc) (e+2) = true)
    (hwm : (nc.getD (maxScan nc 0 (0, 0)).1 dflt).children ≠ []) :
    nav (rebalance_increase (Node.inner key g nc) (e+2)) (e+2) = true := by
  unfold rebalance_increase
  split
  · exact hn
  · obtain ⟨_, hhead, hadj, hnav⟩ := nav_succ_parts hn
    simp only [children_inner, key_inner, g_inner] at hhead hadj hnav ⊢
    have hne : nc ≠ [] := by
      intro hnil
      rw [hnil] at hwm
      exact hwm rfl
    have h0 : 0 < nc.length := List.length_pos.mpr hne
    obtain ⟨hmlt, hmax⟩ := maxScan_argmax nc h0
    have hcm_nav : nav (nc.getD (maxScan nc 0 (0, 0)).1 dflt) (e+1) = true :=
      hnav _ (getD_mem _ _ hmlt)
    obtain ⟨hcm_inner, hcm_head, hcm_adj, hcm_navc⟩ := nav_succ_parts hcm_nav
    have hcmc0 : 0 < (nc.getD (maxScan nc 0 (0, 0)).1 dflt).children.length :=
      List.length_pos.mpr hwm
    have hhalf : (nc.getD (maxScan nc 0 (0, 0)).1 dflt).children.length / 2
        < (nc.getD (maxScan nc 0 (0, 0)).1 dflt).children.length :=
      Nat.div_lt_self hcmc0 (by norm_num)
    have hbkey : ((split (nc.getD (maxScan nc 0 (0, 0)).1 dflt)).2).key
        = ((nc.getD (maxScan nc 0 (0, 0)).1 dflt).children.getD
          ((nc.getD (maxScan nc 0 (0, 0)).1 dflt).children.length / 2) dflt).key := by
      show (((nc.getD (maxScan nc 0 (0, 0)).1 dflt).children.drop
          ((nc.getD (maxScan nc 0 (0, 0)).1 dflt).children.length / 2)).headD dflt).key = _
      rw [headD_drop _ _ hhalf]
    have hakey : ((split (nc.getD (maxScan nc 0 (0, 0)).1 dflt)).1).key
        = (nc.getD (maxScan nc 0 (0, 0)).1 dflt).key := rfl
    have hcm_key0 : (nc.getD (maxScan nc 0 (0, 0)).1 dflt).key
        = ((nc.getD (maxScan nc 0 (0, 0)).1 dflt).children.getD 0 dflt).key :=
      headKeyOK_key _ hcm_head hcmc0
    have hcm_key_le_b : (nc.getD (maxScan nc 0 (0, 0)).1 dflt).key
        ≤ ((nc.getD (maxScan nc 0 (0, 0)).1 dflt).children.getD
          ((nc.getD (maxScan nc 0 (0, 0)).1 dflt).children.length / 2) dflt).key := by
      rcases Nat.eq_zero_or_pos ((nc.getD (maxScan nc 0 (0, 0)).1 dflt).children.length / 2)
        with hh0 | hhpos
      · rw [hh0, ← hcm_key0]
      · have := pairOK_key_le (adjOK_getD hcm_adj 0 _ hhpos hhalf)
        rw [← hcm_key0] at this
        exact this
    have hnava : nav ((split (nc.getD (maxScan nc 0 (0, 0)).1 dflt)).1) (e+1) = true := by
      show nav (Node.inner _ _ ((nc.getD (maxScan nc 0 (0, 0)).1 dflt).children.take
        ((nc.getD (maxScan nc 0 (0, 0)).1 dflt).children.length / 2))) (e+1) = true
      refine nav_mk rfl ?_ ?_ ?_
      · exact headKeyOK_take _ hcm_head _ _
      · exact adjOK_sublist (List.take_sublist _ _) hcm_adj
      · intro c hc
        exact hcm_navc c (List.mem_of_mem_take hc)
    have hnavb : nav ((split (nc.getD (maxScan nc 0 (0, 0)).1 dflt)).2) (e+1) = true := by
      show nav (Node.inner _ _ ((nc.getD (maxScan nc 0 (0, 0)).1 dflt).children.drop
        ((nc.getD (maxScan nc 0 (0, 0)).1 dflt).children.length / 2))) (e+1) = true
      refine nav_mk rfl ?_ ?_ ?_
      · exact headKeyOK_headD _ _
      · exact adjOK_sublist (List.drop_sublist _ _) hcm_adj
      · intro c hc
        exact hcm_navc c (List.mem_of_mem_drop hc)
    have hsub_lo : ∀ x ∈ eKeys ((split (nc.getD (maxScan nc 0 (0, 0)).1 dflt)).1) (e+1),
        x ∈ eKeys (nc.getD (maxScan nc 0 (0, 0)).1 dflt) (e+1) := by
      intro x hx
      obtain ⟨c, hc, hxc⟩ := (eKeys_succ _ e x).mp hx
      refine (eKeys_succ _ e x).mpr ⟨c, ?_, hxc⟩
      exact List.mem_of_mem_take (by simpa using hc)
    have hsub_hi : ∀ x ∈ eKeys ((split (nc.getD (maxScan nc 0 (0, 0)).1 dflt)).2) (e+1),
        x ∈ eKeys (nc.getD (maxScan nc 0 (0, 0)).1 dflt) (e+1) := by
      intro x hx
      obtain ⟨c, hc, hxc⟩ := (eKeys_succ _ e x).mp hx
      refine (eKeys_succ _ e x).mpr ⟨c, ?_, hxc⟩
      exact List.mem_of_mem_drop (by simpa using hc)
    have hpair_ab : pairOK ((split (nc.getD (maxScan nc 0 (0, 0)).1 dflt)).1)
        ((split (nc.getD (maxScan nc 0 (0, 0)).1 dflt)).2) (e+1) = true := by
      refine pairOK_of ?_ ?_
      · intro x hx
        obtain ⟨c, hc, hxc⟩ := (eKeys_succ _ e x).mp hx
        have hc' : c ∈ (nc.getD (maxScan nc 0 (0, 0)).1 dflt).children.take
            ((nc.getD (maxScan nc 0 (0, 0)).1 dflt).children.length / 2) := by
          simpa using hc
        obtain ⟨p, hp, hplen, hgp⟩ := mem_take_idx hc'
        rw [hbkey]
        have hpair := adjOK_getD hcm_adj p _ hp hhalf
        rw [hgp] at hpair
        exact pairOK_entry_lt hpair x hxc
      · rw [hbkey]
        refine allKeysLE_mk ?_ ?_
        · exact hcm_key_le_b
        · intro c hc
          have hc' : c ∈ (nc.getD (maxScan nc 0 (0, 0)).1 dflt).children.take
              ((nc.getD (maxScan nc 0 (0, 0)).1 dflt).children.length / 2) := by
            simpa using hc
          obtain ⟨p, hp, hplen, hgp⟩ := mem_take_idx hc'
          have hpair := adjOK_getD hcm_adj p _ hp hhalf
          rw [hgp] at hpair
          exact pairOK_allKeys hpair
    refine nav_mk rfl ?_ ?_ ?_
    · refine headKeyOK_of_key_eq _ (by simp) ?_
      simp only [children_inner, key_inner]
      rcases Nat.eq_zero_or_pos (maxScan nc 0 (0, 0)).1 with hm0 | hmpos
      · rw [hm0] at hakey ⊢
        simp only [List.take_zero, List.nil_append, List.cons_append, List.getD_cons_zero]
        rw [hakey]
        have := headKeyOK_key _ hhead h0
        simpa using this
      · have hx : (nc.take (maxScan nc 0 (0, 0)).1
            ++ [(split (nc.getD (maxScan nc 0 (0, 0)).1 dflt)).1,
              (split (nc.getD (maxScan nc 0 (0, 0)).1 dflt)).2]
            ++ nc.drop ((maxScan nc 0 (0, 0)).1 + 1)).getD 0 dflt = nc.getD 0 dflt := by
          rw [List.append_assoc,
            List.getD_append _ _ dflt 0
              (by rw [List.length_take]; exact lt_min_iff.mpr ⟨hmpos, h0⟩),
            getD_zero_take _ _ hmpos]
        rw [hx]
        have := headKeyOK_key _ hhead h0
        simpa using this
    · have hlist : nc.take (maxScan nc 0 (0, 0)).1
          ++ [(split (nc.getD (maxScan nc 0 (0, 0)).1 dflt)).1,
            (split (nc.getD (maxScan nc 0 (0, 0)).1 dflt)).2]
          ++ nc.drop ((maxScan nc 0 (0, 0)).1 + 1)
          = nc.take (maxScan nc 0 (0, 0)).1
            ++ (split (nc.getD (maxScan nc 0 (0, 0)).1 dflt)).1
              :: (split (nc.getD (maxScan nc 0 (0, 0)).1 dflt)).2
              :: nc.drop ((maxScan nc 0 (0, 0)).1 + 1) := by
        simp
      rw [hlist]
      refine adjOK_insert_two _ _ _ _ (e+1)
        (adjOK_sublist (List.take_sublist _ _) hadj)
        (adjOK_sublist (List.drop_sublist _ _) hadj)
        hpair_ab
        (adjOK_take_drop hadj (by omega))
        ?_ ?_ ?_ ?_
      · intro a' ha'
        obtain ⟨p, hp, hplen, hgp⟩ := mem_take_idx ha'
        have hpair := adjOK_getD hadj p _ hp hmlt
        rw [hgp] at hpair
        rw [← pairOK_congr hakey] at hpair
        exact hpair
      · intro a' ha'
        obtain ⟨p, hp, hplen, hgp⟩ := mem_take_idx ha'
        have hpair := adjOK_getD hadj p _ hp hmlt
        rw [hgp] at hpair
        refine pairOK_of ?_ ?_
        · intro x hx
          have h1 := pairOK_entry_lt hpair x hx
          rw [hbkey]
          omega
        · rw [hbkey]
          exact allKeysLE_mono hcm_key_le_b (pairOK_allKeys hpair)
      · intro b' hb'
        obtain ⟨q, hq, hgq⟩ := mem_drop_idx hb'
        have hpair := adjOK_getD hadj ((maxScan nc 0 (0, 0)).1) _ (by omega) hq
        rw [hgq] at hpair
        refine pairOK_of ?_ ?_
        · intro x hx
          exact pairOK_entry_lt hpair x (hsub_lo x hx)
        · refine allKeysLE_mk ?_ ?_
          · exact allKeysLE_key (pairOK_allKeys hpair)
          · intro c hc
            simp only [children_inner] at hc
            exact allKeysLE_child (pairOK_allKeys hpair) c (List.mem_of_mem_take hc)
      · intro b' hb'
        obtain ⟨q, hq, hgq⟩ := mem_drop_idx hb'
        have hpair := adjOK_getD hadj ((maxScan nc 0 (0, 0)).1) _ (by omega) hq
        rw [hgq] at hpair
        refine pairOK_of ?_ ?_
        · intro x hx
          exact pairOK_entry_lt hpair x (hsub_hi x hx)
        · refine allKeysLE_mk ?_ ?_
          · rw [headD_drop _ _ hhalf]
            exact allKeysLE_key (allKeysLE_child (pairOK_allKeys hpair) _
              (getD_mem _ _ hhalf))
          · intro c hc
            simp only [children_inner] at hc
            exact allKeysLE_child (pairOK_allKeys hpair) c (List.mem_of_mem_drop hc)
    · intro c hc
      rcases List.mem_append.mp hc with hc1 | hc2
      · rcases List.mem_append.mp hc1 with hc3 | hc4
        · exact hnav c (List.mem_of_mem_take hc3)
        · rcases List.mem_cons.mp hc4 with rfl | hc5
          · exact hnava
          · rcases List.mem_cons.mp hc5 with rfl | hc6
            · exact hnavb
            · simp at hc6
      · exact hnav c (List.mem_of_mem_drop hc2)

theorem pairOK_zero_key_lt {a b : Node} (h : a.key < b.key) : pairOK a b 0 = true := by
  refine pairOK_of ?_ ?_
  · intro x hx
    cases a with
    | leaf kl gl vl =>
      simp only [eKeys, entries, List.map_cons, List.map_nil, List.mem_singleton] at hx
      subst hx
      simpa using h
    | inner kl gl csl =>
      simp [eKeys, entries] at hx
  · simp only [allKeysLE, decide_eq_true_eq]
    exact le_of_lt h

theorem eKeys_zero_of_leaf {c : Node} (h : c.isLeaf = true) : eKeys c 0 = [c.key] := by
  cases c with
  | leaf kl gl vl => simp [eKeys, entries]
  | inner kl gl csl => simp [Node.isLeaf] at h

/-- `add` preserves the global ordering invariant on proper trees. -/
theorem nav_add : ∀ (d : Nat) (t : Node) (k v : Int), 1 ≤ d → nav t d = true →
    proper t d = true → nav (add t k v d) d = true
  | 0, _, _, _, hd, _, _ => absurd hd (by omega)
  | 1, t, k, v, _, hn, hp => by
    obtain ⟨hinner, hhead, hadj, hnav⟩ := nav_succ_parts hn
    obtain ⟨h0, _⟩ := proper_parts hp
    rw [add_one]
    split
    · rename_i hcnd
      obtain ⟨hlt, hkey⟩ := hcnd
      refine nav_mk rfl ?_ ?_ ?_
      · refine headKeyOK_of_key_eq _ ?_ ?_
        · simp only [children_inner, List.length_append, List.length_take,
            List.length_drop, List.length_singleton]
          omega
        · simp only [children_inner, key_inner]
          rcases Nat.eq_zero_or_pos (insLoop t.children k) with hi0 | hipos
          · rw [hi0] at hkey ⊢
            simp only [List.take_zero, List.nil_append, List.cons_append,
              List.getD_cons_zero, key_leaf]
            rw [hkey]
            exact headKeyOK_key t hhead h0
          · have hgd : (t.children.take (insLoop t.children k) ++ [Node.leaf k 1 v]
                ++ t.children.drop (insLoop t.children k + 1)).getD 0 dflt
                = t.children.getD 0 dflt := by
              rw [List.append_assoc,
                List.getD_append _ _ dflt 0
                  (by rw [List.length_take]; exact lt_min_iff.mpr ⟨hipos, h0⟩),
                getD_zero_take _ _ hipos]
            rw [hgd]
            exact headKeyOK_key t hhead h0
      · have hlist : t.children.take (insLoop t.children k) ++ [Node.leaf k 1 v]
            ++ t.children.drop (insLoop t.children k + 1)
            = t.children.take (insLoop t.children k)
              ++ Node.leaf k 1 v :: t.children.drop (insLoop t.children k + 1) := by
          simp
        simp only [children_inner]
        rw [hlist]
        refine adjOK_insert_mid _ _ _ 0
          (adjOK_sublist (List.take_sublist _ _) hadj)
          (adjOK_sublist (List.drop_sublist _ _) hadj)
          (adjOK_take_drop hadj (by omega)) ?_ ?_
        · intro a ha
          obtain ⟨p, hpi, hplen, hgp⟩ := mem_take_idx ha
          have hlt' := insLoop_mem_lt t.children k p hpi
          rw [← hgp]
          exact pairOK_zero_key_lt (by simpa using hlt')
        · intro b hb
          obtain ⟨q, hq, hgq⟩ := mem_drop_idx hb
          have hleaf_i : (t.children.getD (insLoop t.children k) dflt).isLeaf = true :=
            nav_isLeaf (hnav _ (getD_mem _ _ hlt))
          have hkmem : k ∈ eKeys (t.children.getD (insLoop t.children k) dflt) 0 := by
            rw [eKeys_zero_of_leaf hleaf_i]
            exact List.mem_singleton.mpr hkey
          have hpair := adjOK_getD hadj (insLoop t.children k)
            (insLoop t.children k + 1 + q) (by omega) hq
          have hkb : k < b.key := by
            rw [← hgq]
            exact pairOK_entry_lt hpair k hkmem
          exact pairOK_zero_key_lt (by simpa using hkb)
      · intro c hc
        simp only [children_inner, List.append_assoc, List.singleton_append,
          List.mem_append, List.mem_cons] at hc
        rcases hc with hc | rfl | hc
        · exact hnav c (List.mem_of_mem_take hc)
        · rfl
        · exact hnav c (List.mem_of_mem_drop hc)
    · rename_i hcnd
      push_neg at hcnd
      refine nav_mk rfl ?_ ?_ ?_
      · refine headKeyOK_of_key_eq _ ?_ ?_
        · simp only [children_inner, List.length_append, List.length_take,
            List.length_drop, List.length_singleton]
          omega
        · simp only [children_inner, key_inner]
          have ht0 := headKeyOK_key t hhead h0
          rcases Nat.eq_zero_or_pos (insLoop t.children k) with hi0 | hipos
          · have hstop := insLoop_stop t.children k (by omega)
            rw [hi0] at hstop ⊢
            simp only [List.take_zero, List.nil_append, List.cons_append,
              List.getD_cons_zero, key_leaf]
            omega
          · have hgd : (t.children.take (insLoop t.children k) ++ [Node.leaf k 1 v]
                ++ t.children.drop (insLoop t.children k)).getD 0 dflt
                = t.children.getD 0 dflt := by
              rw [List.append_assoc,
                List.getD_append _ _ dflt 0
                  (by rw [List.length_take]; exact lt_min_iff.mpr ⟨hipos, h0⟩),
                getD_zero_take _ _ hipos]
            have hfirst := insLoop_mem_lt t.children k 0 hipos
            rw [hgd]
            omega
      · have hlist : t.children.take (insLoop t.children k) ++ [Node.leaf k 1 v]
            ++ t.children.drop (insLoop t.children k)
            = t.children.take (insLoop t.children k)
              ++ Node.leaf k 1 v :: t.children.drop (insLoop t.children k) := by
          simp
        simp only [children_inner]
        rw [hlist]
        refine adjOK_insert_mid _ _ _ 0
          (adjOK_sublist (List.take_sublist _ _) hadj)
          (adjOK_sublist (List.drop_sublist _ _) hadj)
          (adjOK_take_drop hadj (by omega)) ?_ ?_
        · intro a ha
          obtain ⟨p, hpi, hplen, hgp⟩ := mem_take_idx ha
          have hlt' := insLoop_mem_lt t.children k p hpi
          rw [← hgp]
          exact pairOK_zero_key_lt (by simpa using hlt')
        · intro b hb
          obtain ⟨q, hq, hgq⟩ := mem_drop_idx hb
          have hstop := insLoop_stop t.children k (by omega)
          have hne := hcnd (by omega)
          have hki : k < (t.children.getD (insLoop t.children k) dflt).key :=
            lt_of_le_of_ne hstop hne
          have hkb : k < b.key := by
            rcases Nat.eq_zero_or_pos q with rfl | hqpos
            · rw [← hgq]
              simpa using hki
            · have hpair := adjOK_getD hadj (insLoop t.children k)
                (insLoop t.children k + q) (by omega) hq
              have hle := pairOK_key_le hpair
              rw [← hgq]
              exact lt_of_lt_of_le hki hle
          exact pairOK_zero_key_lt (by simpa using hkb)
      · intro c hc
        simp only [children_inner, List.append_assoc, List.singleton_append,
          List.mem_append, List.mem_cons] at hc
        rcases hc with hc | rfl | hc
        · exact hnav c (List.mem_of_mem_take hc)
        · rfl
        · exact hnav c (List.mem_of_mem_drop hc)
  | (e+2), t, k, v, _, hn, hp => by
    obtain ⟨hinner, hhead, hadj, hnav⟩ := nav_succ_parts hn
    obtain ⟨h0, hprop⟩ := proper_parts hp
    have hilt : get_subindex t k < t.children.length := by
      rw [get_subindex_eq]
      have := subLoop_le t.children k
      split <;> omega
    have hci_nav := hnav _ (getD_mem _ _ hilt)
    have hci_prop := hprop _ (getD_mem _ _ hilt)
    have hrec : nav (add (t.children.getD (get_subindex t k) dflt) k v (e+1)) (e+1)
        = true := nav_add (e+1) _ k v (by omega) hci_nav hci_prop
    have hlist : t.children.take (get_subindex t k)
        ++ [add (t.children.getD (get_subindex t k) dflt) k v (e+1)]
        ++ t.children.drop (get_subindex t k + 1)
        = t.children.take (get_subindex t k)
          ++ add (t.children.getD (get_subindex t k) dflt) k v (e+1)
            :: t.children.drop (get_subindex t k + 1) := by
      simp
    rw [add_step]
    refine nav_rebInc _ _ _ _ ?_ ?_
    · refine nav_mk rfl ?_ ?_ ?_
      · refine headKeyOK_of_key_eq _ ?_ ?_
        · simp only [children_inner, List.length_append, List.length_take,
            List.length_drop, List.length_singleton]
          omega
        · simp only [children_inner, key_inner]
          rw [headD_eq_getD_zero _ (by simp)]
      · simp only [children_inner]
        rw [hlist]
        refine adjOK_insert_mid _ _ _ (e+1)
          (adjOK_sublist (List.take_sublist _ _) hadj)
          (adjOK_sublist (List.drop_sublist _ _) hadj)
          (adjOK_take_drop hadj (by omega)) ?_ ?_
        · intro a ha
          obtain ⟨p, hpi, hplen, hgp⟩ := mem_take_idx ha
          have hpos : 0 < subLoop t.children k := by
            by_contra hz
            push_neg at hz
            have hz0 : subLoop t.children k = 0 := by omega
            have hiz : get_subindex t k = 0 := by
              rw [get_subindex_eq, hz0]
              simp
            omega
          have hikey : (t.children.getD (get_subindex t k) dflt).key ≤ k := by
            rw [get_subindex_eq, if_pos hpos]
            exact subLoop_mem_le t.children k _ (by omega)
          have hkx : (add (t.children.getD (get_subindex t k) dflt) k v (e+1)).key
              = (t.children.getD (get_subindex t k) dflt).key := by
            rw [add_key (e+1) _ k v (by omega) hci_nav hci_prop]
            exact min_eq_right hikey
          rw [← hgp, pairOK_congr hkx]
          exact adjOK_getD hadj p _ hpi hilt
        · intro b hb
          obtain ⟨q, hq, hgq⟩ := mem_drop_idx hb
          have hpair_ib := adjOK_getD hadj (get_subindex t k)
            (get_subindex t k + 1 + q) (by omega) hq
          rw [hgq] at hpair_ib
          have hkb : k < b.key := by
            rcases Nat.eq_zero_or_pos (subLoop t.children k) with hz0 | hpos
            · have hiz : get_subindex t k = 0 := by
                rw [get_subindex_eq, hz0]
                simp
              have hstop := subLoop_stop t.children k (by omega)
              rw [hz0] at hstop
              have hle := pairOK_key_le hpair_ib
              rw [hiz] at hle
              exact lt_of_lt_of_le hstop hle
            · have hi1 : get_subindex t k + 1 = subLoop t.children k := by
                rw [get_subindex_eq, if_pos hpos]
                omega
              have hstop := subLoop_stop t.children k (by omega)
              rw [← hi1] at hstop
              rcases Nat.eq_zero_or_pos q with rfl | hqpos
              · rw [← hgq]
                simpa using hstop
              · have hpair2 := adjOK_getD hadj (get_subindex t k + 1)
                  (get_subindex t k + 1 + q) (by omega) hq
                have hle := pairOK_key_le hpair2
                rw [hgq] at hle
                exact lt_of_lt_of_le hstop hle
          refine pairOK_of ?_ ?_
          · intro x hx
            have he := entries_add (e+1) (t.children.getD (get_subindex t k) dflt) k v
              (by omega) hci_nav hci_prop
            have hx' : x ∈ (insertE k v (entries
                (t.children.getD (get_subindex t k) dflt) (e+1))).map Prod.fst := by
              rw [← he]
              exact hx
            rcases insertE_keys_sub hx' with hmem | rfl
            · have hx2 : x ∈ eKeys (t.children.getD (get_subindex t k) dflt) (e+1) :=
                hmem
              exact pairOK_entry_lt hpair_ib x hx2
            · exact hkb
          · refine add_allKeys (e+1) _ k v b.key (by omega) ?_ (le_of_lt hkb)
            exact pairOK_allKeys hpair_ib
      · intro c hc
        simp only [children_inner, List.append_assoc, List.singleton_append,
          List.mem_append, List.mem_cons] at hc
        rcases hc with hc | rfl | hc
        · exact hnav c (List.mem_of_mem_take hc)
        · exact hrec
        · exact hnav c (List.mem_of_mem_drop hc)
    · have hlen' : (t.children.take (get_subindex t k)
          ++ [add (t.children.getD (get_subindex t k) dflt) k v (e+1)]
          ++ t.children.drop (get_subindex t k + 1)).length = t.children.length := by
        simp only [List.length_append, List.length_take, List.length_drop,
          List.length_singleton]
        omega
      obtain ⟨hmlt, hmax⟩ := maxScan_argmax _ (by rw [hlen']; exact h0)
      have hxat : (t.children.take (get_subindex t k)
          ++ [add (t.children.getD (get_subindex t k) dflt) k v (e+1)]
          ++ t.children.drop (get_subindex t k + 1)).getD (get_subindex t k) dflt
          = add (t.children.getD (get_subindex t k) dflt) k v (e+1) := by
        rw [hlist]
        exact surgery_getD _ _ _ _ (by omega)
      have hxch := add_children_ne (e+1) (t.children.getD (get_subindex t k) dflt) k v
        (by omega)
      have hxpos : 0 < (add (t.children.getD (get_subindex t k) dflt) k v
          (e+1)).children.length := List.length_pos.mpr hxch
      have hbound := hmax (get_subindex t k) (by rw [hlen']; exact hilt)
      rw [hxat] at hbound
      intro hnil
      rw [hnil] at hbound
      simp only [List.length_nil, Nat.le_zero] at hbound
      omega

/-! ### C3: `get` after `add` -/

/-- A tree accepted by `check_invariants` (sorted adjacent siblings, correct
keys, counts and widths) whose subtrees are not globally ordered: the first
child holds leaves with keys 90 and 91 above the second child's key 5. -/
def t3 : Node :=
  .inner 1 5 [.inner 1 4 [.leaf 1 1 10, .leaf 2 1 20, .leaf 90 1 30, .leaf 91 1 40],
    .inner 5 1 [.leaf 5 1 50]]

set_option maxRecDepth 100000 in
/-- C3, counterexample to the literal claim: `t3` satisfies every check of
the source's `check_invariants`, yet `get(add(t3, 6, 42, 2), 6, 2)` returns
`None` instead of `42` — inserting key 6 makes `rebalance_increase` split
the out-of-order first child, after which the descent for 6 enters a
subtree that does not contain it.  "Satisfies the structural invariants"
in the claim's sense therefore does not suffice. -/
theorem C3_add_get_counterexample :
    check_invariants t3 2 = true ∧ get (add t3 6 42 2) 6 2 = none := by
  constructor
  · decide
  · decide

/-- C3 (corrected): on a tree of depth `d ≥ 1` whose every internal level
is nonempty (`proper`) and which is globally ordered (`nav`, strictly
stronger than what `check_invariants` verifies), `get` after `add` returns
the value just inserted. -/
theorem C3_add_then_get (d : Nat) (t : Node) (k v : Int) (hd : 1 ≤ d)
    (hn : nav t d = true) (hp : proper t d = true) :
    get (add t k v d) k d = some v := by
  rw [get_eq_lookupE d _ k hd (nav_add d t k v hd hn hp),
    entries_add d t k v hd hn hp, lookupE_insertE]

/-- Witness for C3 on a concrete ordered tree. -/
theorem C3_add_then_get_witness : get (add (newtree 1) 5 7 1) 5 1 = some 7 :=
  C3_add_then_get 1 (newtree 1) 5 7 (by decide) (by decide) (by decide)

/-! ### C9: `add` of a present key -/

/-- `add` leaves the root count unchanged exactly when the key was already
present (otherwise it grows by one). -/
theorem g_add : ∀ (d : Nat) (t : Node) (k v : Int), 1 ≤ d → nav t d = true →
    proper t d = true →
    (add t k v d).g = if k ∈ eKeys t d then t.g else t.g + 1
  | 0, _, _, _, hd, _, _ => absurd hd (by omega)
  | 1, t, k, v, _, hn, hp => by
    obtain ⟨hinner, hhead, hadj, hnav⟩ := nav_succ_parts hn
    obtain ⟨h0, _⟩ := proper_parts hp
    rw [add_one]
    split
    · rename_i hcnd
      obtain ⟨hlt, hkey⟩ := hcnd
      have hmem : k ∈ eKeys t 1 := by
        refine (eKeys_succ t 0 k).mpr ⟨_, getD_mem _ _ hlt, ?_⟩
        rw [eKeys_zero_of_leaf (nav_isLeaf (hnav _ (getD_mem _ _ hlt)))]
        exact List.mem_singleton.mpr hkey
      rw [if_pos hmem]
      rfl
    · rename_i hcnd
      push_neg at hcnd
      have hnmem : k ∉ eKeys t 1 := by
        intro hmem
        obtain ⟨c, hc, hkc⟩ := (eKeys_succ t 0 k).mp hmem
        obtain ⟨j, hj, hgj⟩ := List.getElem_of_mem hc
        have hjc : t.children.getD j dflt = c := by
          rw [List.getD_eq_getElem _ _ hj]
          exact hgj
        have hkeyc : k = c.key := by
          rw [eKeys_zero_of_leaf (nav_isLeaf (hnav c hc))] at hkc
          exact List.mem_singleton.mp hkc
        rcases lt_trichotomy j (insLoop t.children k) with hlt' | heq | hgt
        · have hjlt := insLoop_mem_lt t.children k j hlt'
          rw [hjc] at hjlt
          omega
        · have hilen : insLoop t.children k < t.children.length := by omega
          have hne := hcnd hilen
          rw [← heq, hjc] at hne
          exact hne hkeyc
        · have hilen : insLoop t.children k < t.children.length := by omega
          have hstop := insLoop_stop t.children k hilen
          have hpair := adjOK_getD hadj (insLoop t.children k) j hgt hj
          have hml : (t.children.getD (insLoop t.children k) dflt).key
              < (t.children.getD j dflt).key := by
            have hic : (t.children.getD (insLoop t.children k) dflt).key
                ∈ eKeys (t.children.getD (insLoop t.children k) dflt) 0 := by
              rw [eKeys_zero_of_leaf (nav_isLeaf (hnav _ (getD_mem _ _ hilen)))]
              simp
            exact pairOK_entry_lt hpair _ hic
          rw [hjc] at hml
          omega
      rw [if_neg hnmem]
      rfl
  | (e+2), t, k, v, _, hn, hp => by
    obtain ⟨hinner, hhead, hadj, hnav⟩ := nav_succ_parts hn
    obtain ⟨h0, hprop⟩ := proper_parts hp
    have hilt : get_subindex t k < t.children.length := by
      rw [get_subindex_eq]
      have := subLoop_le t.children k
      split <;> omega
    have hci_nav := hnav _ (getD_mem _ _ hilt)
    have hci_prop := hprop _ (getD_mem _ _ hilt)
    have hlist : t.children.take (get_subindex t k)
        ++ [add (t.children.getD (get_subindex t k) dflt) k v (e+1)]
        ++ t.children.drop (get_subindex t k + 1)
        = t.children.take (get_subindex t k)
          ++ add (t.children.getD (get_subindex t k) dflt) k v (e+1)
            :: t.children.drop (get_subindex t k + 1) := by
      simp
    have hxat : (t.children.take (get_subindex t k)
        ++ [add (t.children.getD (get_subindex t k) dflt) k v (e+1)]
        ++ t.children.drop (get_subindex t k + 1)).getD (get_subindex t k) dflt
        = add (t.children.getD (get_subindex t k) dflt) k v (e+1) := by
      rw [hlist]
      exact surgery_getD _ _ _ _ (by omega)
    have hiff : k ∈ eKeys t (e+2)
        ↔ k ∈ eKeys (t.children.getD (get_subindex t k) dflt) (e+1) := by
      constructor
      · intro hmem
        obtain ⟨c, hc, hkc⟩ := (eKeys_succ t (e+1) k).mp hmem
        obtain ⟨j, hj, hgj⟩ := List.getElem_of_mem hc
        have hjc : t.children.getD j dflt = c := by
          rw [List.getD_eq_getElem _ _ hj]
          exact hgj
        rcases lt_trichotomy j (get_subindex t k) with hlt' | heq | hgt
        · have hpos : 0 < subLoop t.children k := by
            by_contra hz
            push_neg at hz
            have hz0 : subLoop t.children k = 0 := by omega
            have hiz : get_subindex t k = 0 := by
              rw [get_subindex_eq, hz0]
              simp
            omega
          have hikey : (t.children.getD (get_subindex t k) dflt).key ≤ k := by
            rw [get_subindex_eq, if_pos hpos]
            exact subLoop_mem_le t.children k _ (by omega)
          have hpair := adjOK_getD hadj j (get_subindex t k) hlt' hilt
          have hklt := pairOK_entry_lt hpair k (by rw [hjc]; exact hkc)
          omega
        · rw [← heq, hjc]
          exact hkc
        · exfalso
          have hkle : (t.children.getD j dflt).key ≤ k := by
            rw [hjc]
            exact nav_key_le_entry (hnav c hc) hkc
          have hsl_le : subLoop t.children k ≤ j := by
            rw [get_subindex_eq] at hgt
            split at hgt <;> omega
          have hstop := subLoop_stop t.children k (by omega)
          rcases eq_or_lt_of_le hsl_le with heq2 | hlt2
          · rw [heq2] at hstop
            omega
          · have hpair := adjOK_getD hadj _ j hlt2 hj
            have hle := pairOK_key_le hpair
            omega
      · intro hk
        exact (eKeys_succ t (e+1) k).mpr ⟨_, getD_mem _ _ hilt, hk⟩
    rw [add_step, rebInc_g]
    simp only [g_inner]
    rw [hxat, g_add (e+1) _ k v (by omega) hci_nav hci_prop]
    by_cases hk : k ∈ eKeys (t.children.getD (get_subindex t k) dflt) (e+1)
    · rw [if_pos hk, if_pos (hiff.mpr hk)]
      omega
    · rw [if_neg hk, if_neg (fun hmem => hk (hiff.mp hmem))]
      omega

/-- A globally ordered tree accepted by `check_invariants` on which
replacing the value of the present key 5 still triggers a root rebalance,
changing the counts seen along the descent path to 5. -/
def t9 : Node :=
  .inner 2 7 [.inner 2 2 [.leaf 2 1 22, .leaf 3 1 33],
    .inner 4 5 [.leaf 4 1 44, .leaf 5 1 55, .leaf 6 1 66, .leaf 7 1 77, .leaf 8 1 88]]

set_option maxRecDepth 100000 in
/-- C9, counterexample to the literal claim: `t9` passes `check_invariants`
(and is even globally ordered), key 5 is present, yet `add(t9, 5, 99, 2)`
does not leave the count of every node along the descent path to 5
unchanged: `rebalance_increase` still fires on the root (its count exceeds
`len(children) ** d` already before the call), splitting the child on the
path, so the counts along the path change from `[7, 5]` to `[7, 2]`.
Only the root's own count is preserved. -/
theorem C9_add_present_gpath_counterexample :
    check_invariants t9 2 = true ∧ nav t9 2 = true ∧ get t9 5 2 = some 55
    ∧ gPath (add t9 5 99 2) 5 2 ≠ gPath t9 5 2 := by
  refine ⟨by decide, by decide, by decide, by decide⟩

/-- C9 (corrected): on a globally ordered proper tree, `add` of a present
key replaces its value (subsequent `get` of that key returns the new
value) and leaves the root count unchanged; counts of the inner nodes
along the descent path are not in general preserved (see the
counterexample), because a rebalance can still restructure the path. -/
theorem C9_add_present_updates_value_and_keeps_root_count (d : Nat) (t : Node)
    (k v : Int) (hd : 1 ≤ d) (hn : nav t d = true) (hp : proper t d = true)
    (hk : k ∈ eKeys t d) :
    (add t k v d).g = t.g ∧ get (add t k v d) k d = some v := by
  constructor
  · rw [g_add d t k v hd hn hp, if_pos hk]
  · rw [get_eq_lookupE d _ k hd (nav_add d t k v hd hn hp),
      entries_add d t k v hd hn hp, lookupE_insertE]

set_option maxRecDepth 100000 in
/-- Witness for the corrected C9 on `t9` with the present key 5. -/
theorem C9_add_present_witness :
    (add t9 5 99 2).g = t9.g ∧ get (add t9 5 99 2) 5 2 = some 99 :=
  C9_add_present_updates_value_and_keeps_root_count 2 t9 5 99 (by decide)
    (by decide) (by decide) (by decide)

/-! ### `remove`: structure of `rebalance_decrease` -/

theorem minScan_lt_len (cs : List Node) (h2 : 1 < cs.length) :
    (minScan cs 0 (0, 2 ^ 999)).1 + 1 < cs.length := by
  rcases minScan_spec cs 0 0 (2 ^ 999) with ⟨heq, _⟩ | ⟨j, hj, h1, _, _, _, _⟩
  · rw [heq]
    simpa using h2
  · have hm : (minScan cs 0 (0, 2 ^ 999)).1 = j := by simpa using h1
    omega

theorem headD_mem (cs : List Node) (h : cs ≠ []) : cs.headD dflt ∈ cs := by
  cases cs with
  | nil => exact absurd rfl h
  | cons c r => exact List.mem_cons_self _ _

theorem headKeyOK_ifHead (key g2 : Int) (cs : List Node) :
    headKeyOK (Node.inner (if cs.length != 0 then (cs.headD dflt).key else key) g2 cs)
      = true := by
  cases cs with
  | nil => rfl
  | cons c r => simp [headKeyOK]

theorem nav_key_le_child {t : Node} {e : Nat} (hn : nav t (e+1) = true) {c : Node}
    (hc : c ∈ t.children) : t.key ≤ c.key := by
  obtain ⟨_, hhead, hadj, _⟩ := nav_succ_parts hn
  obtain ⟨j, hj, hgj⟩ := List.getElem_of_mem hc
  have hjc : t.children.getD j dflt = c := by
    rw [List.getD_eq_getElem _ _ hj]
    exact hgj
  have hk0 := headKeyOK_key t hhead (by omega)
  cases j with
  | zero =>
    rw [hk0, hjc]
  | succ j' =>
    have hpair := adjOK_getD hadj 0 (j'+1) (by omega) hj
    have hle := pairOK_key_le hpair
    rw [hjc] at hle
    omega

theorem pairOK_le_key {a b b' : Node} {d : Nat} (h : pairOK a b d = true)
    (hk : b.key ≤ b'.key) : pairOK a b' d = true := by
  refine pairOK_of (fun x hx => lt_of_lt_of_le (pairOK_entry_lt h x hx) hk) ?_
  exact allKeysLE_mono hk (pairOK_allKeys h)

theorem remove_one (t : Node) (k : Int) :
    remove t k 1 =
      Node.inner
        (if (t.children.filter (fun u => u.key != k)).length != 0 then
          ((t.children.filter (fun u => u.key != k)).headD dflt).key
        else t.key)
        ((t.children.filter (fun u => u.key != k)).length : Int)
        (t.children.filter (fun u => u.key != k)) := rfl

theorem remove_step (t : Node) (k : Int) (d : Nat) :
    remove t k (d+2) =
      if get_subindex t k = t.children.length then t
      else
        rebalance_decrease (Node.inner
          ((t.children.take (get_subindex t k)
              ++ [remove (t.children.getD (get_subindex t k) dflt) k (d+1)]
              ++ t.children.drop (get_subindex t k + 1)).headD dflt).key
          (t.g - (t.children.getD (get_subindex t k) dflt).g
            + ((t.children.take (get_subindex t k)
                ++ [remove (t.children.getD (get_subindex t k) dflt) k (d+1)]
                ++ t.children.drop (get_subindex t k + 1)).getD (get_subindex t k) dflt).g)
          (t.children.take (get_subindex t k)
              ++ [remove (t.children.getD (get_subindex t k) dflt) k (d+1)]
              ++ t.children.drop (get_subindex t k + 1)))
          (d+2) := rfl

theorem drop_decomp (cs : List Node) (n : Nat) (hn : n < cs.length) :
    cs.drop n = cs.getD n dflt :: cs.drop (n+1) := by
  rw [List.drop_eq_getElem_cons hn, List.getD_eq_getElem _ _ hn]

theorem list_decomp_two (cs : List Node) (m : Nat) (h : m + 1 < cs.length) :
    cs = cs.take m ++ cs.getD m dflt :: cs.getD (m+1) dflt :: cs.drop (m+2) := by
  conv_lhs => rw [list_split_at cs m (by omega)]
  rw [drop_decomp cs (m+1) h]

theorem rebDec_g (t : Node) (d : Nat) : (rebalance_decrease t d).g = t.g := by
  rw [rebalance_decrease_eq]
  split
  · rfl
  · rfl

theorem key_join (a b : Node) : (join a b).key = a.key := rfl

theorem entries_join (a b : Node) (e : Nat) :
    entries (join a b) (e+1) = entries a (e+1) ++ entries b (e+1) := by
  show entries (Node.inner a.key (a.g + b.g) (a.children ++ b.children)) (e+1) = _
  rw [entries_succ, entries_succ, entries_succ]
  simp

theorem allKeysLE_join {a b : Node} {e : Nat} {bnd : Int}
    (ha : allKeysLE a (e+1) bnd = true) (hb : allKeysLE b (e+1) bnd = true) :
    allKeysLE (join a b) (e+1) bnd = true := by
  show allKeysLE (Node.inner a.key (a.g + b.g) (a.children ++ b.children)) (e+1) bnd = true
  refine allKeysLE_mk (allKeysLE_key ha) ?_
  intro c hc
  simp only [children_inner] at hc
  rcases List.mem_append.mp hc with hc' | hc'
  · exact allKeysLE_child ha c hc'
  · exact allKeysLE_child hb c hc'

theorem flatten_filter (cs : List Node) (e : Nat) :
    ((cs.filter (fun u => u.children.length != 0)).map
      (fun c => entries c (e+1))).flatten
    = (cs.map (fun c => entries c (e+1))).flatten := by
  induction cs with
  | nil => rfl
  | cons c rest ih =>
    by_cases hc : (c.children.length != 0) = true
    · have hstep : List.filter (fun u => u.children.length != 0) (c :: rest)
          = c :: List.filter (fun u => u.children.length != 0) rest := by
        simp [List.filter_cons, hc]
      rw [hstep]
      simp only [List.map_cons, List.flatten_cons, ih]
    · have hcn : c.children = [] := by
        simp at hc
        exact hc
      have hstep : List.filter (fun u => u.children.length != 0) (c :: rest)
          = List.filter (fun u => u.children.length != 0) rest := by
        simp [List.filter_cons, hcn]
      have hce : entries c (e+1) = [] := by
        rw [entries_succ, hcn]
        simp
      rw [hstep]
      simp only [List.map_cons, List.flatten_cons, hce, List.nil_append, ih]

theorem flatten_cleaned (t : Node) (e : Nat) :
    ((cleaned t).map (fun c => entries c (e+1))).flatten
    = (t.children.map (fun c => entries c (e+1))).flatten :=
  flatten_filter t.children e

theorem entries_rebDec (key g : Int) (nc : List Node) (e : Nat) :
    entries (rebalance_decrease (Node.inner key g nc) (e+2)) (e+2)
      = entries (Node.inner key g nc) (e+2) := by
  have hfc := flatten_cleaned (Node.inner key g nc) e
  simp only [children_inner] at hfc
  rw [rebalance_decrease_eq]
  split
  · rw [entries_succ, entries_succ]
    simp only [children_inner]
    exact hfc
  · rename_i hcond
    push_neg at hcond
    obtain ⟨_, _, hlen⟩ := hcond
    have hm1 : (minScan (cleaned (Node.inner key g nc)) 0 (0, 2 ^ 999)).1 + 1
        < (cleaned (Node.inner key g nc)).length := minScan_lt_len _ (by omega)
    have hdec := list_decomp_two (cleaned (Node.inner key g nc))
      (minScan (cleaned (Node.inner key g nc)) 0 (0, 2 ^ 999)).1 hm1
    rw [entries_succ, entries_succ]
    simp only [children_inner]
    rw [← hfc]
    conv_rhs => rw [hdec]
    simp [entries_join, List.append_assoc]

theorem rebDec_allKeys (key g : Int) (nc : List Node) (e : Nat) (bnd : Int)
    (h : allKeysLE (Node.inner key g nc) (e+2) bnd = true) :
    allKeysLE (rebalance_decrease (Node.inner key g nc) (e+2)) (e+2) bnd = true := by
  have hkey : key ≤ bnd := by simpa using allKeysLE_key h
  have hch : ∀ c ∈ nc, allKeysLE c (e+1) bnd = true := by
    have := allKeysLE_child h
    simpa using this
  have hcl : ∀ c ∈ cleaned (Node.inner key g nc), allKeysLE c (e+1) bnd = true :=
    fun c hc => hch c (List.mem_of_mem_filter hc)
  rw [rebalance_decrease_eq]
  split
  · refine allKeysLE_mk ?_ ?_
    · split
      · rename_i hne
        refine allKeysLE_key (hcl _ (headD_mem _ ?_))
        intro hnil
        simp [hnil] at hne
      · exact hkey
    · intro c hc
      simp only [children_inner] at hc
      exact hcl c hc
  · rename_i hcond
    push_neg at hcond
    obtain ⟨_, _, hlen⟩ := hcond
    have hm1 : (minScan (cleaned (Node.inner key g nc)) 0 (0, 2 ^ 999)).1 + 1
        < (cleaned (Node.inner key g nc)).length := minScan_lt_len _ (by omega)
    have hjoin : allKeysLE (join ((cleaned (Node.inner key g nc)).getD
          (minScan (cleaned (Node.inner key g nc)) 0 (0, 2 ^ 999)).1 dflt)
        ((cleaned (Node.inner key g nc)).getD
          ((minScan (cleaned (Node.inner key g nc)) 0 (0, 2 ^ 999)).1 + 1) dflt))
        (e+1) bnd = true :=
      allKeysLE_join (hcl _ (getD_mem _ _ (by omega))) (hcl _ (getD_mem _ _ (by omega)))
    refine allKeysLE_mk ?_ ?_
    · split
      · have hmem := headD_mem ((cleaned (Node.inner key g nc)).take
            (minScan (cleaned (Node.inner key g nc)) 0 (0, 2 ^ 999)).1
          ++ [join ((cleaned (Node.inner key g nc)).getD
                (minScan (cleaned (Node.inner key g nc)) 0 (0, 2 ^ 999)).1 dflt)
              ((cleaned (Node.inner key g nc)).getD
                ((minScan (cleaned (Node.inner key g nc)) 0 (0, 2 ^ 999)).1 + 1) dflt)]
          ++ (cleaned (Node.inner key g nc)).drop
            ((minScan (cleaned (Node.inner key g nc)) 0 (0, 2 ^ 999)).1 + 2)) (by simp)
        have hh : allKeysLE (((cleaned (Node.inner key g nc)).take
            (minScan (cleaned (Node.inner key g nc)) 0 (0, 2 ^ 999)).1
          ++ [join ((cleaned (Node.inner key g nc)).getD
                (minScan (cleaned (Node.inner key g nc)) 0 (0, 2 ^ 999)).1 dflt)
              ((cleaned (Node.inner key g nc)).getD
                ((minScan (cleaned (Node.inner key g nc)) 0 (0, 2 ^ 999)).1 + 1) dflt)]
          ++ (cleaned (Node.inner key g nc)).drop
            ((minScan (cleaned (Node.inner key g nc)) 0 (0, 2 ^ 999)).1 + 2)).headD dflt)
            (e+1) bnd = true := by
          rcases List.mem_append.mp hmem with hm | hm
          · rcases List.mem_append.mp hm with hm' | hm'
            · exact hcl _ (List.mem_of_mem_take hm')
            · rw [List.mem_singleton.mp hm']
              exact hjoin
          · exact hcl _ (List.mem_of_mem_drop hm)
        exact allKeysLE_key hh
      · exact hkey
    · intro c hc
      simp only [children_inner] at hc
      rcases List.mem_append.mp hc with hm | hm
      · rcases List.mem_append.mp hm with hm' | hm'
        · exact hcl _ (List.mem_of_mem_take hm')
        · rw [List.mem_singleton.mp hm']
          exact hjoin
      · exact hcl _ (List.mem_of_mem_drop hm)

theorem rebDec_key_ge (key g : Int) (nc : List Node) (e : Nat) (bnd : Int)
    (hk : bnd ≤ key) (hch : ∀ u ∈ nc, bnd ≤ u.key) :
    bnd ≤ (rebalance_decrease (Node.inner key g nc) (e+2)).key := by
  have hcl : ∀ u ∈ cleaned (Node.inner key g nc), bnd ≤ u.key :=
    fun u hu => hch u (List.mem_of_mem_filter hu)
  rw [rebalance_decrease_eq]
  split
  · simp only [key_inner]
    split
    · rename_i hne
      refine hcl _ (headD_mem _ ?_)
      intro hnil
      simp [hnil] at hne
    · exact hk
  · rename_i hcond
    push_neg at hcond
    obtain ⟨_, _, hlen⟩ := hcond
    have hm1 : (minScan (cleaned (Node.inner key g nc)) 0 (0, 2 ^ 999)).1 + 1
        < (cleaned (Node.inner key g nc)).length := minScan_lt_len _ (by omega)
    simp only [key_inner]
    split
    · have hmem := headD_mem ((cleaned (Node.inner key g nc)).take
          (minScan (cleaned (Node.inner key g nc)) 0 (0, 2 ^ 999)).1
        ++ [join ((cleaned (Node.inner key g nc)).getD
              (minScan (cleaned (Node.inner key g nc)) 0 (0, 2 ^ 999)).1 dflt)
            ((cleaned (Node.inner key g nc)).getD
              ((minScan (cleaned (Node.inner key g nc)) 0 (0, 2 ^ 999)).1 + 1) dflt)]
        ++ (cleaned (Node.inner key g nc)).drop
          ((minScan (cleaned (Node.inner key g nc)) 0 (0, 2 ^ 999)).1 + 2)) (by simp)
      rcases List.mem_append.mp hmem with hm | hm
      · rcases List.mem_append.mp hm with hm' | hm'
        · exact hcl _ (List.mem_of_mem_take hm')
        · rw [List.mem_singleton.mp hm', key_join]
          exact hcl _ (getD_mem _ _ (by omega))
      · exact hcl _ (List.mem_of_mem_drop hm)
    · exact hk

theorem nav_rebDec (key g : Int) (nc : List Node) (e : Nat)
    (hadj : adjOK nc (e+1) = true) (hnav : ∀ c ∈ nc, nav c (e+1) = true) :
    nav (rebalance_decrease (Node.inner key g nc) (e+2)) (e+2) = true := by
  have hcadj : adjOK (cleaned (Node.inner key g nc)) (e+1) = true :=
    adjOK_sublist (List.filter_sublist _) hadj
  have hcnav : ∀ c ∈ cleaned (Node.inner key g nc), nav c (e+1) = true :=
    fun c hc => hnav c (List.mem_of_mem_filter hc)
  have hcne : ∀ c ∈ cleaned (Node.inner key g nc), c.children ≠ [] := by
    intro c hc hnil
    have hf := List.of_mem_filter hc
    rw [hnil] at hf
    simp at hf
  rw [rebalance_decrease_eq]
  split
  · refine nav_mk rfl ?_ ?_ ?_
    · exact headKeyOK_ifHead _ _ _
    · simp only [children_inner]
      exact hcadj
    · intro c hc
      simp only [children_inner] at hc
      exact hcnav c hc
  · rename_i hcond
    push_neg at hcond
    obtain ⟨_, _, hlen⟩ := hcond
    set cl := cleaned (Node.inner key g nc) with hcldef
    set m := (minScan cl 0 (0, 2 ^ 999)).1 with hmdef
    have hm1 : m + 1 < cl.length := by
      rw [hmdef]
      exact minScan_lt_len cl (by omega)
    have hpair_m := adjOK_getD hcadj m (m+1) (by omega) hm1
    have hnavm := hcnav _ (getD_mem cl m (by omega))
    have hnavm1 := hcnav _ (getD_mem cl (m+1) (by omega))
    have hnem := hcne _ (getD_mem cl m (by omega))
    have hnavj : nav (join (cl.getD m dflt) (cl.getD (m+1) dflt)) (e+1) = true := by
      obtain ⟨hinm, hheadm, hadjm, hnavcm⟩ := nav_succ_parts hnavm
      obtain ⟨hinm1, hheadm1, hadjm1, hnavcm1⟩ := nav_succ_parts hnavm1
      show nav (Node.inner (cl.getD m dflt).key
        ((cl.getD m dflt).g + (cl.getD (m+1) dflt).g)
        ((cl.getD m dflt).children ++ (cl.getD (m+1) dflt).children)) (e+1) = true
      refine nav_mk rfl ?_ ?_ ?_
      · refine headKeyOK_of_key_eq _ ?_ ?_
        · simp only [children_inner, List.length_append]
          have := List.length_pos.mpr hnem
          omega
        · simp only [children_inner, key_inner]
          rw [List.getD_append _ _ dflt 0 (List.length_pos.mpr hnem)]
          exact headKeyOK_key _ hheadm (List.length_pos.mpr hnem)
      · simp only [children_inner]
        rw [adjOK_pairwise, List.pairwise_append]
        refine ⟨(adjOK_pairwise _ _).mp hadjm, (adjOK_pairwise _ _).mp hadjm1, ?_⟩
        intro a' ha' b' hb'
        have hkb' : (cl.getD (m+1) dflt).key ≤ b'.key := nav_key_le_child hnavm1 hb'
        refine pairOK_of ?_ ?_
        · intro x hx
          have hxm : x ∈ eKeys (cl.getD m dflt) (e+1) :=
            (eKeys_succ _ e x).mpr ⟨a', ha', hx⟩
          exact lt_of_lt_of_le (pairOK_entry_lt hpair_m x hxm) hkb'
        · refine allKeysLE_mono hkb' ?_
          exact allKeysLE_child (pairOK_allKeys hpair_m) a' ha'
      · intro c hc
        simp only [children_inner] at hc
        rcases List.mem_append.mp hc with hc' | hc'
        · exact hnavcm c hc'
        · exact hnavcm1 c hc'
    have hadjA : adjOK (cl.take m ++ join (cl.getD m dflt) (cl.getD (m+1) dflt)
        :: cl.drop (m+2)) (e+1) = true := by
      refine adjOK_insert_mid _ _ _ (e+1)
        (adjOK_sublist (List.take_sublist _ _) hcadj)
        (adjOK_sublist (List.drop_sublist _ _) hcadj)
        (adjOK_take_drop hcadj (by omega)) ?_ ?_
      · intro a ha
        obtain ⟨p, hpi, hplen, hgp⟩ := mem_take_idx ha
        rw [← hgp, pairOK_congr (key_join _ _)]
        exact adjOK_getD hcadj p m hpi (by omega)
      · intro b hb
        obtain ⟨q, hq, hgq⟩ := mem_drop_idx hb
        have hpm := adjOK_getD hcadj m (m+2+q) (by omega) hq
        have hpm1 := adjOK_getD hcadj (m+1) (m+2+q) (by omega) hq
        rw [hgq] at hpm hpm1
        refine pairOK_of ?_ ?_
        · intro x hx
          have hx2 : x ∈ (entries (join (cl.getD m dflt) (cl.getD (m+1) dflt))
              (e+1)).map Prod.fst := hx
          rw [entries_join, List.map_append] at hx2
          rcases List.mem_append.mp hx2 with hxm | hxm
          · exact pairOK_entry_lt hpm x hxm
          · exact pairOK_entry_lt hpm1 x hxm
        · exact allKeysLE_join (pairOK_allKeys hpm) (pairOK_allKeys hpm1)
    refine nav_mk rfl ?_ ?_ ?_
    · exact headKeyOK_ifHead _ _ _
    · simp only [children_inner]
      have hlist2 : cl.take m
          ++ [join (cl.getD m dflt) (cl.getD (m+1) dflt)] ++ cl.drop (m+2)
          = cl.take m ++ join (cl.getD m dflt) (cl.getD (m+1) dflt)
            :: cl.drop (m+2) := by
        simp
      rw [hlist2]
      exact hadjA
    · intro c hc
      simp only [children_inner, List.append_assoc, List.singleton_append,
        List.mem_append, List.mem_cons] at hc
      rcases hc with hc | rfl | hc
      · exact hcnav c (List.mem_of_mem_take hc)
      · exact hnavj
      · exact hcnav c (List.mem_of_mem_drop hc)

theorem eKeys_rebDec (key g : Int) (nc : List Node) (e : Nat) :
    eKeys (rebalance_decrease (Node.inner key g nc) (e+2)) (e+2)
      = eKeys (Node.inner key g nc) (e+2) := by
  simp only [eKeys, entries_rebDec]

theorem remove_key_ge : ∀ (d : Nat) (t : Node) (k : Int), 1 ≤ d → nav t d = true →
    t.key ≤ (remove t k d).key
  | 0, _, _, hd, _ => absurd hd (by omega)
  | 1, t, k, _, hn => by
    rw [remove_one]
    simp only [key_inner]
    split
    · rename_i hne
      refine nav_key_le_child hn (List.mem_of_mem_filter (headD_mem _ ?_))
      intro hnil
      rw [hnil] at hne
      simp at hne
    · exact le_refl _
  | (e+2), t, k, _, hn => by
    obtain ⟨hinner, hhead, hadj, hnav⟩ := nav_succ_parts hn
    rw [remove_step]
    split
    · exact le_refl _
    · rename_i hne
      have hile : get_subindex t k ≤ t.children.length := by
        rw [get_subindex_eq]
        have := subLoop_le t.children k
        split <;> omega
      have hilt : get_subindex t k < t.children.length := by omega
      have hci_nav := hnav _ (getD_mem _ _ hilt)
      have hallL : ∀ u ∈ t.children.take (get_subindex t k)
          ++ [remove (t.children.getD (get_subindex t k) dflt) k (e+1)]
          ++ t.children.drop (get_subindex t k + 1), t.key ≤ u.key := by
        intro u hu
        simp only [List.append_assoc, List.singleton_append, List.mem_append,
          List.mem_cons] at hu
        rcases hu with hu | rfl | hu
        · exact nav_key_le_child hn (List.mem_of_mem_take hu)
        · exact le_trans (nav_key_le_child hn (getD_mem _ _ hilt))
            (remove_key_ge (e+1) _ k (by omega) hci_nav)
        · exact nav_key_le_child hn (List.mem_of_mem_drop hu)
      refine rebDec_key_ge _ _ _ _ _ ?_ hallL
      exact hallL _ (headD_mem _ (by simp))

theorem remove_allKeys : ∀ (d : Nat) (t : Node) (k bnd : Int), 1 ≤ d →
    allKeysLE t d bnd = true → allKeysLE (remove t k d) d bnd = true
  | 0, _, _, _, hd, _ => absurd hd (by omega)
  | 1, t, k, bnd, _, ht => by
    have hkey : t.key ≤ bnd := allKeysLE_key ht
    have hch := allKeysLE_child ht
    rw [remove_one]
    refine allKeysLE_mk ?_ ?_
    · split
      · rename_i hne
        refine allKeysLE_key (hch _ (List.mem_of_mem_filter (headD_mem _ ?_)))
        intro hnil
        rw [hnil] at hne
        simp at hne
      · exact hkey
    · intro c hc
      exact hch c (List.mem_of_mem_filter hc)
  | (e+2), t, k, bnd, _, ht => by
    have hkey : t.key ≤ bnd := allKeysLE_key ht
    have hch := allKeysLE_child ht
    rw [remove_step]
    split
    · exact ht
    · rename_i hne
      have hile : get_subindex t k ≤ t.children.length := by
        rw [get_subindex_eq]
        have := subLoop_le t.children k
        split <;> omega
      have hilt : get_subindex t k < t.children.length := by omega
      have hallL : ∀ u ∈ t.children.take (get_subindex t k)
          ++ [remove (t.children.getD (get_subindex t k) dflt) k (e+1)]
          ++ t.children.drop (get_subindex t k + 1),
          allKeysLE u (e+1) bnd = true := by
        intro u hu
        simp only [List.append_assoc, List.singleton_append, List.mem_append,
          List.mem_cons] at hu
        rcases hu with hu | rfl | hu
        · exact hch _ (List.mem_of_mem_take hu)
        · exact remove_allKeys (e+1) _ k bnd (by omega) (hch _ (getD_mem _ _ hilt))
        · exact hch _ (List.mem_of_mem_drop hu)
      refine rebDec_allKeys _ _ _ _ _ ?_
      refine allKeysLE_mk ?_ ?_
      · exact allKeysLE_key (hallL _ (headD_mem _ (by simp)))
      · intro c hc
        simp only [children_inner] at hc
        exact hallL c hc

theorem eKeys_remove_sub : ∀ (d : Nat) (t : Node) (k x : Int),
    x ∈ eKeys (remove t k d) d → x ∈ eKeys t d
  | 0, _, _, _, hx => hx
  | 1, t, k, x, hx => by
    rw [remove_one] at hx
    obtain ⟨c, hc, hxc⟩ := (eKeys_succ _ 0 x).mp hx
    simp only [children_inner] at hc
    exact (eKeys_succ t 0 x).mpr ⟨c, List.mem_of_mem_filter hc, hxc⟩
  | (e+2), t, k, x, hx => by
    rw [remove_step] at hx
    by_cases hie : get_subindex t k = t.children.length
    · rw [if_pos hie] at hx
      exact hx
    · rw [if_neg hie] at hx
      have hile : get_subindex t k ≤ t.children.length := by
        rw [get_subindex_eq]
        have := subLoop_le t.children k
        split <;> omega
      have hilt : get_subindex t k < t.children.length := by omega
      rw [eKeys_rebDec] at hx
      obtain ⟨c, hc, hxc⟩ := (eKeys_succ _ (e+1) x).mp hx
      simp only [children_inner, List.append_assoc, List.singleton_append,
        List.mem_append, List.mem_cons] at hc
      rcases hc with hc | rfl | hc
      · exact (eKeys_succ t (e+1) x).mpr ⟨c, List.mem_of_mem_take hc, hxc⟩
      · exact (eKeys_succ t (e+1) x).mpr ⟨_, getD_mem _ _ hilt,
          eKeys_remove_sub (e+1) _ k x hxc⟩
      · exact (eKeys_succ t (e+1) x).mpr ⟨c, List.mem_of_mem_drop hc, hxc⟩

theorem entries_remove_base (cs : List Node) (k : Int) (h : ∀ c ∈ cs, c.isLeaf = true) :
    ((cs.filter (fun u => u.key != k)).map (fun c => entries c 0)).flatten
      = ((cs.map (fun c => entries c 0)).flatten).filter (fun p => p.1 != k) := by
  induction cs with
  | nil => rfl
  | cons c rest ih =>
    have hcl := h c (List.mem_cons_self c rest)
    have hrest := ih (fun c' hc' => h c' (List.mem_cons_of_mem _ hc'))
    cases c with
    | inner kc gc ccs => simp [Node.isLeaf] at hcl
    | leaf kc gc vc =>
      by_cases hk : (kc != k) = true
      · have hstep : List.filter (fun u => u.key != k) (Node.leaf kc gc vc :: rest)
            = Node.leaf kc gc vc :: List.filter (fun u => u.key != k) rest := by
          simp [List.filter_cons, hk]
        rw [hstep]
        simp only [List.map_cons, List.flatten_cons, List.filter_append, hrest]
        simp [entries, List.filter_cons, hk]
      · have hstep : List.filter (fun u => u.key != k) (Node.leaf kc gc vc :: rest)
            = List.filter (fun u => u.key != k) rest := by
          simp [List.filter_cons, hk]
        rw [hstep]
        simp only [List.map_cons, List.flatten_cons, List.filter_append, hrest]
        simp [entries, List.filter_cons, hk]

theorem entries_remove : ∀ (d : Nat) (t : Node) (k : Int), 1 ≤ d → nav t d = true →
    proper t d = true →
    entries (remove t k d) d = (entries t d).filter (fun p => p.1 != k)
  | 0, _, _, hd, _, _ => absurd hd (by omega)
  | 1, t, k, _, hn, _ => by
    obtain ⟨hinner, _, _, hnav⟩ := nav_succ_parts hn
    rw [remove_one, entries_succ, entries_succ]
    simp only [children_inner]
    exact entries_remove_base t.children k (fun c hc => nav_isLeaf (hnav c hc))
  | (e+2), t, k, _, hn, hp => by
    obtain ⟨hinner, hhead, hadj, hnav⟩ := nav_succ_parts hn
    obtain ⟨h0, hprop⟩ := proper_parts hp
    have hilt : get_subindex t k < t.children.length := by
      rw [get_subindex_eq]
      have := subLoop_le t.children k
      split <;> omega
    rw [remove_step, if_neg (by omega)]
    rw [show (entries (rebalance_decrease (Node.inner
        ((t.children.take (get_subindex t k)
            ++ [remove (t.children.getD (get_subindex t k) dflt) k (e+1)]
            ++ t.children.drop (get_subindex t k + 1)).headD dflt).key
        (t.g - (t.children.getD (get_subindex t k) dflt).g
          + ((t.children.take (get_subindex t k)
              ++ [remove (t.children.getD (get_subindex t k) dflt) k (e+1)]
              ++ t.children.drop (get_subindex t k + 1)).getD (get_subindex t k) dflt).g)
        (t.children.take (get_subindex t k)
            ++ [remove (t.children.getD (get_subindex t k) dflt) k (e+1)]
            ++ t.children.drop (get_subindex t k + 1))) (e+2)) (e+2)) = _
      from entries_rebDec _ _ _ e]
    rw [entries_succ]
    simp only [children_inner]
    have hsplit : t.children.take (get_subindex t k)
        ++ [remove (t.children.getD (get_subindex t k) dflt) k (e+1)]
        ++ t.children.drop (get_subindex t k + 1)
        = t.children.take (get_subindex t k)
          ++ remove (t.children.getD (get_subindex t k) dflt) k (e+1)
            :: t.children.drop (get_subindex t k + 1) := by
      simp
    rw [hsplit, List.map_append, List.flatten_append, List.map_cons, List.flatten_cons]
    rw [entries_remove (e+1) _ k (by omega) (hnav _ (getD_mem _ _ hilt))
      (hprop _ (getD_mem _ _ hilt))]
    conv_rhs => rw [entries_decomp t (e+1) (get_subindex t k) hilt]
    rw [List.filter_append, List.filter_append]
    have htake : (((t.children.take (get_subindex t k)).map
          (fun c => entries c (e+1))).flatten).filter (fun p => p.1 != k)
        = ((t.children.take (get_subindex t k)).map
          (fun c => entries c (e+1))).flatten := by
      refine List.filter_eq_self.mpr ?_
      intro p hp'
      have hlt := subindex_take_lt hadj hilt p.1 (List.mem_map_of_mem Prod.fst hp')
      exact bne_iff_ne.mpr (ne_of_lt hlt)
    have hdrop : (((t.children.drop (get_subindex t k + 1)).map
          (fun c => entries c (e+1))).flatten).filter (fun p => p.1 != k)
        = ((t.children.drop (get_subindex t k + 1)).map
          (fun c => entries c (e+1))).flatten := by
      refine List.filter_eq_self.mpr ?_
      intro p hp'
      have hgt := subindex_drop_gt hadj hnav p.1 (List.mem_map_of_mem Prod.fst hp')
      exact bne_iff_ne.mpr (ne_of_gt hgt)
    rw [htake, hdrop]
    simp [List.append_assoc]

theorem nav_remove : ∀ (d : Nat) (t : Node) (k : Int), 1 ≤ d → nav t d = true →
    proper t d = true → nav (remove t k d) d = true
  | 0, _, _, hd, _, _ => absurd hd (by omega)
  | 1, t, k, _, hn, _ => by
    obtain ⟨hinner, hhead, hadj, hnav⟩ := nav_succ_parts hn
    rw [remove_one]
    refine nav_mk rfl (headKeyOK_ifHead _ _ _) ?_ ?_
    · simp only [children_inner]
      exact adjOK_sublist (List.filter_sublist _) hadj
    · intro c hc
      simp only [children_inner] at hc
      exact hnav c (List.mem_of_mem_filter hc)
  | (e+2), t, k, _, hn, hp => by
    obtain ⟨hinner, hhead, hadj, hnav⟩ := nav_succ_parts hn
    obtain ⟨h0, hprop⟩ := proper_parts hp
    have hilt : get_subindex t k < t.children.length := by
      rw [get_subindex_eq]
      have := subLoop_le t.children k
      split <;> omega
    rw [remove_step, if_neg (by omega)]
    have hci_nav := hnav _ (getD_mem _ _ hilt)
    have hci_prop := hprop _ (getD_mem _ _ hilt)
    have hrec : nav (remove (t.children.getD (get_subindex t k) dflt) k (e+1)) (e+1)
        = true := nav_remove (e+1) _ k (by omega) hci_nav hci_prop
    refine nav_rebDec _ _ _ _ ?_ ?_
    · have hsplit : t.children.take (get_subindex t k)
          ++ [remove (t.children.getD (get_subindex t k) dflt) k (e+1)]
          ++ t.children.drop (get_subindex t k + 1)
          = t.children.take (get_subindex t k)
            ++ remove (t.children.getD (get_subindex t k) dflt) k (e+1)
              :: t.children.drop (get_subindex t k + 1) := by
        simp
      rw [hsplit]
      refine adjOK_insert_mid _ _ _ (e+1)
        (adjOK_sublist (List.take_sublist _ _) hadj)
        (adjOK_sublist (List.drop_sublist _ _) hadj)
        (adjOK_take_drop hadj (by omega)) ?_ ?_
      · intro a ha
        obtain ⟨p, hpi, hplen, hgp⟩ := mem_take_idx ha
        have hpair := adjOK_getD hadj p _ hpi hilt
        rw [← hgp]
        exact pairOK_le_key hpair (remove_key_ge (e+1) _ k (by omega) hci_nav)
      · intro b hb
        obtain ⟨q, hq, hgq⟩ := mem_drop_idx hb
        have hpair := adjOK_getD hadj (get_subindex t k)
          (get_subindex t k + 1 + q) (by omega) hq
        rw [hgq] at hpair
        refine pairOK_of ?_ ?_
        · intro x hx
          exact pairOK_entry_lt hpair x (eKeys_remove_sub (e+1) _ k x hx)
        · exact remove_allKeys (e+1) _ k _ (by omega) (pairOK_allKeys hpair)
    · intro c hc
      simp only [List.append_assoc, List.singleton_append, List.mem_append,
        List.mem_cons] at hc
      rcases hc with hc | rfl | hc
      · exact hnav c (List.mem_of_mem_take hc)
      · exact hrec
      · exact hnav c (List.mem_of_mem_drop hc)

theorem sumG_ones : ∀ (cs : List Node), (∀ c ∈ cs, c.g = 1) →
    sumG cs = (cs.length : Int)
  | [], _ => by simp [sumG]
  | c :: rest, h => by
    have hc := h c (List.mem_cons_self c rest)
    have hr := sumG_ones rest (fun c' hc' => h c' (List.mem_cons_of_mem _ hc'))
    simp only [sumG, List.map_cons, List.sum_cons, List.length_cons]
    rw [hc]
    simp only [sumG] at hr
    rw [hr]
    push_cast
    ring

theorem gOK_succ_parts {t : Node} {d : Nat} (h : gOK t (d+1) = true) :
    t.g = sumG t.children ∧ ∀ c ∈ t.children, gOK c d = true := by
  simp [gOK] at h
  exact h

theorem gOK_zero {t : Node} (h : gOK t 0 = true) : t.g = 1 := by
  simpa [gOK] using h

theorem g_remove_absent : ∀ (d : Nat) (t : Node) (k : Int), 1 ≤ d → nav t d = true →
    gOK t d = true → k ∉ eKeys t d → (remove t k d).g = t.g
  | 0, _, _, hd, _, _, _ => absurd hd (by omega)
  | 1, t, k, _, hn, hg, hk => by
    obtain ⟨hinner, _, _, hnav⟩ := nav_succ_parts hn
    obtain ⟨hsum, hgch⟩ := gOK_succ_parts hg
    have hfid : t.children.filter (fun u => u.key != k) = t.children := by
      refine List.filter_eq_self.mpr ?_
      intro u hu
      refine bne_iff_ne.mpr ?_
      intro heq
      refine hk ?_
      refine (eKeys_succ t 0 k).mpr ⟨u, hu, ?_⟩
      rw [eKeys_zero_of_leaf (nav_isLeaf (hnav u hu))]
      exact List.mem_singleton.mpr heq.symm
    rw [remove_one, hfid]
    simp only [g_inner]
    rw [hsum, sumG_ones t.children (fun c hc => gOK_zero (hgch c hc))]
  | (e+2), t, k, _, hn, hg, hk => by
    obtain ⟨hinner, hhead, hadj, hnav⟩ := nav_succ_parts hn
    obtain ⟨hsum, hgch⟩ := gOK_succ_parts hg
    rw [remove_step]
    split
    · rfl
    · rename_i hne
      have hile : get_subindex t k ≤ t.children.length := by
        rw [get_subindex_eq]
        have := subLoop_le t.children k
        split <;> omega
      have hilt : get_subindex t k < t.children.length := by omega
      have hsplit : t.children.take (get_subindex t k)
          ++ [remove (t.children.getD (get_subindex t k) dflt) k (e+1)]
          ++ t.children.drop (get_subindex t k + 1)
          = t.children.take (get_subindex t k)
            ++ remove (t.children.getD (get_subindex t k) dflt) k (e+1)
              :: t.children.drop (get_subindex t k + 1) := by
        simp
      have hxat : (t.children.take (get_subindex t k)
          ++ [remove (t.children.getD (get_subindex t k) dflt) k (e+1)]
          ++ t.children.drop (get_subindex t k + 1)).getD (get_subindex t k) dflt
          = remove (t.children.getD (get_subindex t k) dflt) k (e+1) := by
        rw [hsplit]
        exact surgery_getD _ _ _ _ (by omega)
      have hkci : k ∉ eKeys (t.children.getD (get_subindex t k) dflt) (e+1) := by
        intro hmem
        exact hk ((eKeys_succ t (e+1) k).mpr ⟨_, getD_mem _ _ hilt, hmem⟩)
      rw [rebDec_g]
      simp only [g_inner]
      rw [hxat, g_remove_absent (e+1) _ k (by omega) (hnav _ (getD_mem _ _ hilt))
        (hgch _ (getD_mem _ _ hilt)) hkci]
      omega

/-! ### C4: `get` after `remove` -/

/-- A tree accepted by `check_invariants` holding the key 3 twice, in two
different subtrees (the checker compares only adjacent sibling keys, so it
does not notice). -/
def t4 : Node :=
  .inner 1 4 [.inner 1 2 [.leaf 1 1 11, .leaf 3 1 77],
    .inner 3 2 [.leaf 3 1 33, .leaf 4 1 44]]

set_option maxRecDepth 100000 in
/-- C4, counterexample to the literal claim: `t4` passes every check of the
source's `check_invariants` and key 3 is present (`get` finds it), yet
after `remove(t4, 3, 2)` a `get` of key 3 still returns a value: the
removal deletes the copy in the second child, after which the descent
finds the other copy in the first child.  "Satisfies the structural
invariants" in the claim's sense therefore does not suffice. -/
theorem C4_remove_get_counterexample :
    check_invariants t4 2 = true ∧ get t4 3 2 = some 33
    ∧ get (remove t4 3 2) 3 2 = some 77 :=
  ⟨by decide, by decide, by decide⟩

/-- C4 (corrected): on a globally ordered proper tree of depth `d ≥ 1`,
`get` after `remove` of a present key returns the not-found sentinel
`none` (in fact no presence hypothesis is needed: the depth-1 filter
deletes every leaf with the key, and ordering guarantees the descent
reaches the only subtree that could hold it). -/
theorem C4_get_after_remove (d : Nat) (t : Node) (k : Int) (hd : 1 ≤ d)
    (hn : nav t d = true) (hp : proper t d = true) (hk : k ∈ eKeys t d) :
    get (remove t k d) k d = none := by
  rw [get_eq_lookupE d _ k hd (nav_remove d t k hd hn hp),
    entries_remove d t k hd hn hp]
  refine lookupE_none ?_
  intro x hx
  obtain ⟨p, hp', rfl⟩ := List.mem_map.mp hx
  exact bne_iff_ne.mp (List.mem_filter.mp hp').2

set_option maxRecDepth 100000 in
/-- Witness for the corrected C4 on a concrete ordered tree. -/
theorem C4_get_after_remove_witness : get (remove t9 5 2) 5 2 = none :=
  C4_get_after_remove 2 t9 5 (by decide) (by decide) (by decide) (by decide)

/-! ### C6: `remove` of an absent key -/

/-- A globally ordered, count-correct tree accepted by `check_invariants`
whose root has three children and only four descendants. -/
def t6 : Node :=
  .inner 1 4 [.inner 1 2 [.leaf 1 1 11, .leaf 2 1 22],
    .inner 3 1 [.leaf 3 1 33], .inner 4 1 [.leaf 4 1 44]]

set_option maxRecDepth 100000 in
/-- C6, counterexample to the literal claim: key 5 is absent from `t6`
(which passes `check_invariants`, is globally ordered and count-correct),
yet `remove(t6, 5, 2)` does not return the tree unchanged: the root's
count 4 does not exceed `(3-1)^2`, so `rebalance_decrease` joins a pair
of children and the root ends up with two children instead of three. -/
theorem C6_remove_absent_counterexample :
    check_invariants t6 2 = true ∧ nav t6 2 = true ∧ gOK t6 2 = true
    ∧ get t6 5 2 = none
    ∧ (remove t6 5 2).children.length ≠ t6.children.length :=
  ⟨by decide, by decide, by decide, by decide, by decide⟩

/-- C6 (corrected): on a globally ordered, proper, count-correct tree of
depth `d ≥ 1`, `remove` of an absent key is only *observationally* a
no-op: the stored key/value pairs (hence every subsequent `get`) and the
root count are unchanged, but the returned tree need not equal the input
as a value, because `rebalance_decrease` may still merge two children
(see the counterexample). -/
theorem C6_remove_absent_preserves (d : Nat) (t : Node) (k k' : Int) (hd : 1 ≤ d)
    (hn : nav t d = true) (hp : proper t d = true) (hg : gOK t d = true)
    (hk : k ∉ eKeys t d) :
    (remove t k d).g = t.g ∧ get (remove t k d) k' d = get t k' d := by
  have hent : entries (remove t k d) d = entries t d := by
    rw [entries_remove d t k hd hn hp]
    refine List.filter_eq_self.mpr ?_
    intro p hp'
    refine bne_iff_ne.mpr ?_
    intro heq
    refine hk ?_
    rw [← heq]
    exact List.mem_map_of_mem Prod.fst hp'
  refine ⟨g_remove_absent d t k hd hn hg hk, ?_⟩
  rw [get_eq_lookupE d _ k' hd (nav_remove d t k hd hn hp), hent,
    ← get_eq_lookupE d t k' hd hn]

set_option maxRecDepth 100000 in
/-- Witness for the corrected C6 on `t6` with absent key 5: the count is
preserved and a lookup of the present key 3 is unaffected. -/
theorem C6_remove_absent_witness :
    (remove t6 5 2).g = t6.g ∧ get (remove t6 5 2) 3 2 = get t6 3 2 :=
  C6_remove_absent_preserves 2 t6 5 3 (by decide) (by decide) (by decide)
    (by decide) (by decide)

end Fdtree
